import Mathlib

/-!
Shallow embedding of the I/O pipeline (zio.c) and of the per-leaf-device I/O
scheduler (vdev_queue.c) of the ZFS storage core, together with proofs of the
documented error-propagation, scheduling, gang-block and pipeline-termination
properties.  Pure functions of the C sources are translated into Lean
functions; the stateful scheduler and the parent/child completion protocol
become explicit step relations on state records.  Machine integers are
modelled as Nat (the few places where unsigned wraparound matters are noted
at their definitions).
-/

/-! ## errno values (sys/errno.h)

Only the identity of these codes matters to the error ranking; the numeric
values are the platform's.  Lower-case names are used because EIO is taken
by the Lean core library. -/

def eio : Nat := 5
def enxio : Nat := 6
def enospc : Nat := 28
def ecksum : Nat := 122

/-! ## Error ranking (zio.c, zio_worst_error, lines 2980-2995) -/

/-- The rank table zio_error_rank of zio_worst_error: errors are ranked in
the order 0, ENXIO, ECKSUM, EIO, and any other error is presumed worse. -/
def zio_error_rank : List Nat := [0, enxio, ecksum, eio]

/-- The lookup loop of zio_worst_error: the index of the first table entry
equal to e, or the table length when none matches. -/
def zio_error_rank_index (e : Nat) : List Nat → Nat
  | [] => 0
  | x :: xs => if e = x then 0 else zio_error_rank_index e xs + 1

/-- The rank of an error code under zio_error_rank. -/
def errRank (e : Nat) : Nat := zio_error_rank_index e zio_error_rank

/-- zio_worst_error (zio.c): the argument of the higher rank; on equal ranks
the second argument is returned. -/
def zio_worst_error (e1 e2 : Nat) : Nat :=
  if errRank e1 > errRank e2 then e1 else e2

/-! ## Parent notification and error inheritance
(zio.c, zio_notify_parent lines 516-537, zio_inherit_child_errors 539-544) -/

/-- The four child roles of a pipeline request (enum zio_child of the zio.h
header): vdev, gang, dedup (ddt) and logical. -/
inductive ZioChild where
  | vdev
  | gang
  | ddt
  | logical
deriving DecidableEq

/-- The fields of struct zio that the error-propagation path reads and
writes: the request's own error, its reexecute mode, its role towards its
parents, the ZIO_FLAG_DONT_PROPAGATE flag, and the per-child-role worst
error recorded so far. -/
structure Zio where
  io_error : Nat
  io_reexecute : Nat
  io_child_type : ZioChild
  dont_propagate : Bool
  io_child_error : ZioChild → Nat

/-- zio_notify_parent (zio.c lines 516-537) restricted to the fields it
writes on the parent pio: when the completing child zio carries a nonzero
error and does not carry ZIO_FLAG_DONT_PROPAGATE, the parent records, for
the child's role, the worst of the previously recorded error and the
child's error; the child's reexecute bits are always or-ed in. -/
def zio_notify_parent (pio zio : Zio) : Zio :=
  { pio with
    io_child_error := fun c =>
      if c = zio.io_child_type ∧ zio.io_error ≠ 0 ∧ zio.dont_propagate = false then
        zio_worst_error (pio.io_child_error c) zio.io_error
      else pio.io_child_error c,
    io_reexecute := pio.io_reexecute ||| zio.io_reexecute }

/-- zio_inherit_child_errors (zio.c lines 539-544): at the done stage a
request whose own error is zero inherits the recorded child error of role
c. -/
def zio_inherit_child_errors (zio : Zio) (c : ZioChild) : Zio :=
  if zio.io_child_error c ≠ 0 ∧ zio.io_error = 0 then
    { zio with io_error := zio.io_child_error c }
  else zio

/-! ## The device scheduler (vdev_queue.c)

The six queueable I/O classes, in the priority order given at the head of
vdev_queue.c: sync read, sync write, async read, async write, scrub/resilver
and trim; the non-queueable ZIO_PRIORITY_NOW is carried as well since child
i/os can arrive with it before vdev_queue_io normalizes them. -/

inductive ZioPriority where
  | syncRead
  | syncWrite
  | asyncRead
  | asyncWrite
  | scrub
  | trim
  | now
deriving DecidableEq

/-- The numeric value of each enumerator of zio_priority_t. -/
def zio_priority_code : ZioPriority → Nat
  | .syncRead => 0
  | .syncWrite => 1
  | .asyncRead => 2
  | .asyncWrite => 3
  | .scrub => 4
  | .trim => 5
  | .now => 7

def ZIO_PRIORITY_NUM_QUEUEABLE : Nat := 6

/-- The queueable classes in priority order, as iterated by the loops
for (p = 0; p < ZIO_PRIORITY_NUM_QUEUEABLE; p++) of vdev_queue.c. -/
def priorityOrder : List ZioPriority :=
  [.syncRead, .syncWrite, .asyncRead, .asyncWrite, .scrub, .trim]

/-- The tunables of vdev_queue.c (lines 120-175), with the dirty-data budget
zfs_dirty_data_max of dsl_pool.c consumed here as a parameter of the same
record.  The defaults are the initial values in the source (zfs_dirty_data_max
has no initializer in this file; a representative value is used). -/
structure VdevParams where
  zfs_vdev_max_active : Nat := 1000
  zfs_vdev_sync_read_min_active : Nat := 10
  zfs_vdev_sync_read_max_active : Nat := 10
  zfs_vdev_sync_write_min_active : Nat := 10
  zfs_vdev_sync_write_max_active : Nat := 10
  zfs_vdev_async_read_min_active : Nat := 1
  zfs_vdev_async_read_max_active : Nat := 3
  zfs_vdev_async_write_min_active : Nat := 1
  zfs_vdev_async_write_max_active : Nat := 10
  zfs_vdev_scrub_min_active : Nat := 1
  zfs_vdev_scrub_max_active : Nat := 2
  zfs_vdev_trim_min_active : Nat := 1
  zfs_vdev_trim_max_active : Nat := 64
  zfs_vdev_async_write_active_min_dirty_percent : Nat := 30
  zfs_vdev_async_write_active_max_dirty_percent : Nat := 60
  zfs_dirty_data_max : Nat := 4294967296
  zfs_vdev_aggregation_limit : Nat := 131072
  zfs_vdev_read_gap_limit : Nat := 32768
  zfs_vdev_write_gap_limit : Nat := 4096

/-- vdev_queue_class_min_active (vdev_queue.c lines 461-481).  The source
panics on a non-queueable priority; the scheduler never asks for one, and
the model returns 0 there. -/
def vdev_queue_class_min_active (P : VdevParams) : ZioPriority → Nat
  | .syncRead => P.zfs_vdev_sync_read_min_active
  | .syncWrite => P.zfs_vdev_sync_write_min_active
  | .asyncRead => P.zfs_vdev_async_read_min_active
  | .asyncWrite => P.zfs_vdev_async_write_min_active
  | .scrub => P.zfs_vdev_scrub_min_active
  | .trim => P.zfs_vdev_trim_min_active
  | .now => 0

/-- vdev_queue_max_async_writes (vdev_queue.c lines 483-520).  dirty is
spa->spa_dsl_pool->dp_dirty_total and pending_synctask the value of
spa_has_pending_synctask(spa), both consumed as inputs. -/
def vdev_queue_max_async_writes (P : VdevParams) (dirty : Nat)
    (pending_synctask : Bool) : Nat :=
  let min_bytes := P.zfs_dirty_data_max *
    P.zfs_vdev_async_write_active_min_dirty_percent / 100
  let max_bytes := P.zfs_dirty_data_max *
    P.zfs_vdev_async_write_active_max_dirty_percent / 100
  if pending_synctask then P.zfs_vdev_async_write_max_active
  else if dirty < min_bytes then P.zfs_vdev_async_write_min_active
  else if dirty > max_bytes then P.zfs_vdev_async_write_max_active
  else
    (dirty - min_bytes) *
        (P.zfs_vdev_async_write_max_active - P.zfs_vdev_async_write_min_active) /
        (max_bytes - min_bytes) +
      P.zfs_vdev_async_write_min_active

/-- The piece-wise linear function described by the block comment above
vdev_queue_max_async_writes (and by the specification): the configured
minimum below the low dirty-data threshold, the configured maximum above the
high one, and the integer linear interpolation between the two bounds
otherwise.  This is the specification-side reading, for comparison with the
source function. -/
def async_writes_spec_formula (P : VdevParams) (dirty : Nat) : Nat :=
  let min_bytes := P.zfs_dirty_data_max *
    P.zfs_vdev_async_write_active_min_dirty_percent / 100
  let max_bytes := P.zfs_dirty_data_max *
    P.zfs_vdev_async_write_active_max_dirty_percent / 100
  if dirty < min_bytes then P.zfs_vdev_async_write_min_active
  else if dirty > max_bytes then P.zfs_vdev_async_write_max_active
  else
    P.zfs_vdev_async_write_min_active +
      (dirty - min_bytes) *
        (P.zfs_vdev_async_write_max_active - P.zfs_vdev_async_write_min_active) /
        (max_bytes - min_bytes)

/-- vdev_queue_class_max_active (vdev_queue.c lines 522-542). -/
def vdev_queue_class_max_active (P : VdevParams) (dirty : Nat)
    (pending_synctask : Bool) : ZioPriority → Nat
  | .syncRead => P.zfs_vdev_sync_read_max_active
  | .syncWrite => P.zfs_vdev_sync_write_max_active
  | .asyncRead => P.zfs_vdev_async_read_max_active
  | .asyncWrite => vdev_queue_max_async_writes P dirty pending_synctask
  | .scrub => P.zfs_vdev_scrub_max_active
  | .trim => P.zfs_vdev_trim_max_active
  | .now => 0

/-- The occupancy of one leaf-device queue (vdev_queue_t): the size of each
per-class queued tree, each per-class vqc_active counter, and the size of
the device-wide vq_active_tree, which vdev_queue_pending_add and
vdev_queue_pending_remove keep in step with the counters. -/
structure VdevQueue where
  vqc_queued : ZioPriority → Nat
  vqc_active : ZioPriority → Nat
  vq_active_tree : Nat

/-- vdev_queue_init (vdev_queue.c lines 324-351): all trees empty and all
counters zero. -/
def vdev_queue_empty : VdevQueue :=
  { vqc_queued := fun _ => 0, vqc_active := fun _ => 0, vq_active_tree := 0 }

/-- vdev_queue_io_add (vdev_queue.c lines 365-380): one request enters the
queued tree of its class. -/
def vdev_queue_io_add (vq : VdevQueue) (p : ZioPriority) : VdevQueue :=
  { vq with vqc_queued := fun q =>
      if q = p then vq.vqc_queued q + 1 else vq.vqc_queued q }

/-- vdev_queue_io_remove (lines 382-398) applied k times to class p: the k
members taken out of the queued tree when one or an aggregate of k requests
is issued or bypassed. -/
def vdev_queue_io_remove_n (vq : VdevQueue) (p : ZioPriority) (k : Nat) : VdevQueue :=
  { vq with vqc_queued := fun q =>
      if q = p then vq.vqc_queued q - k else vq.vqc_queued q }

/-- vdev_queue_pending_add (vdev_queue.c lines 400-416): the class counter
and the device-wide active tree both grow by one. -/
def vdev_queue_pending_add (vq : VdevQueue) (p : ZioPriority) : VdevQueue :=
  { vq with
    vqc_active := fun q => if q = p then vq.vqc_active q + 1 else vq.vqc_active q,
    vq_active_tree := vq.vq_active_tree + 1 }

/-- vdev_queue_pending_remove (vdev_queue.c lines 418-445). -/
def vdev_queue_pending_remove (vq : VdevQueue) (p : ZioPriority) : VdevQueue :=
  { vq with
    vqc_active := fun q => if q = p then vq.vqc_active q - 1 else vq.vqc_active q,
    vq_active_tree := vq.vq_active_tree - 1 }

/-- vdev_queue_class_to_issue (vdev_queue.c lines 548-580): nothing when the
aggregate maximum is reached; else the first class in priority order that
has queued i/os and is below its minimum; else the first that has queued
i/os and is below its maximum; none stands for ZIO_PRIORITY_NUM_QUEUEABLE. -/
def vdev_queue_class_to_issue (P : VdevParams) (dirty : Nat)
    (pending_synctask : Bool) (vq : VdevQueue) : Option ZioPriority :=
  if vq.vq_active_tree ≥ P.zfs_vdev_max_active then none
  else
    match priorityOrder.find? (fun p =>
        decide (0 < vq.vqc_queued p ∧
          vq.vqc_active p < vdev_queue_class_min_active P p)) with
    | some p => some p
    | none =>
        priorityOrder.find? (fun p =>
          decide (0 < vq.vqc_queued p ∧
            vq.vqc_active p < vdev_queue_class_max_active P dirty pending_synctask p))

/-- One observable event on a leaf-device queue.  The constructors follow the
code paths of vdev_queue.c: enqueue is the vdev_queue_io_add call of
vdev_queue_io (line 834); issue is one round of vdev_queue_io_to_issue
(lines 743-801) that selects class p, removes the chosen request or the k
members of the aggregate built for it from the queued tree, and moves the
resulting request into the active set via vdev_queue_pending_add; bypass is
the ZIO_FLAG_NODATA round (lines 789-795) that removes queued requests and
issues none; complete is the vdev_queue_pending_remove call of
vdev_queue_io_done (line 860). -/
inductive VQStep (P : VdevParams) (dirty : Nat) (pending_synctask : Bool) :
    VdevQueue → VdevQueue → Prop where
  | enqueue (vq : VdevQueue) (p : ZioPriority)
      (hp : zio_priority_code p < ZIO_PRIORITY_NUM_QUEUEABLE) :
      VQStep P dirty pending_synctask vq (vdev_queue_io_add vq p)
  | issue (vq : VdevQueue) (p : ZioPriority) (k : Nat)
      (hp : vdev_queue_class_to_issue P dirty pending_synctask vq = some p)
      (hk : 1 ≤ k) (hq : k ≤ vq.vqc_queued p) :
      VQStep P dirty pending_synctask vq
        (vdev_queue_pending_add (vdev_queue_io_remove_n vq p k) p)
  | bypass (vq : VdevQueue) (p : ZioPriority) (k : Nat)
      (hp : vdev_queue_class_to_issue P dirty pending_synctask vq = some p)
      (hk : 1 ≤ k) (hq : k ≤ vq.vqc_queued p) :
      VQStep P dirty pending_synctask vq (vdev_queue_io_remove_n vq p k)
  | complete (vq : VdevQueue) (p : ZioPriority)
      (h : 0 < vq.vqc_active p) :
      VQStep P dirty pending_synctask vq (vdev_queue_pending_remove vq p)

/-! ## Priority normalization on entry (vdev_queue.c, vdev_queue_io 803-847) -/

/-- The operation types that reach vdev_queue_io (its else branch asserts
ZIO_TYPE_FREE). -/
inductive ZioType where
  | read
  | write
  | free
deriving DecidableEq

/-- The priority fix-up at the head of vdev_queue_io (lines 816-828):
children inherit their parent's priority, which might not match the child's
i/o type, and are normalized to a queueable class of their own type. -/
def vdev_queue_io_fixup_priority (t : ZioType) (p : ZioPriority) : ZioPriority :=
  match t with
  | .read =>
      if p ≠ .syncRead ∧ p ≠ .asyncRead ∧ p ≠ .scrub then .asyncRead else p
  | .write =>
      if p ≠ .syncWrite ∧ p ≠ .asyncWrite then .asyncWrite else p
  | .free => .trim

/-! ## Gang blocks (zio.c)

The constants SPA_MINBLOCKSIZE, SPA_GANGBLOCKSIZE and SPA_GBH_NBLKPTRS come
from the spa.h header: the minimum block size is 512 bytes, a gang header
occupies one minimum-size block and holds (512 - sizeof zio_eck_t) /
sizeof blkptr_t = 3 block pointers. -/

def SPA_MINBLOCKSIZE : Nat := 512

def SPA_GBH_NBLKPTRS : Nat := 3

/-- P2ROUNDUP(x, align) of sysmacros.h for a power-of-two align: x rounded
up to the next multiple of align.  The C macro wraps around for x = 0; the
gang loop only applies it to positive values. -/
def P2ROUNDUP (x align : Nat) : Nat := (x + align - 1) / align * align

/-- The child-size loop of zio_write_gang_block (zio.c lines 1955-1974):
the divisor SPA_GBH_NBLKPTRS - g is carried as the number of remaining
block-pointer slots; each round carves lsize = P2ROUNDUP(resid / slots,
SPA_MINBLOCKSIZE) off the residual until it reaches zero. -/
def zio_write_gang_sizes_go : Nat → Nat → List Nat
  | 0, _ => []
  | slots + 1, resid =>
      if resid = 0 then []
      else
        let lsize := P2ROUNDUP (resid / (slots + 1)) SPA_MINBLOCKSIZE
        lsize :: zio_write_gang_sizes_go slots (resid - lsize)

/-- The logical sizes of the gang children that zio_write_gang_block creates
for a request of the given size. -/
def zio_write_gang_sizes (size : Nat) : List Nat :=
  zio_write_gang_sizes_go SPA_GBH_NBLKPTRS size

/-- The per-level soundness predicate for a child-size list against a
running residual: every child is at least the minimum block size and at
most the residual it was carved from. -/
def gangSizesOk : Nat → List Nat → Prop
  | _, [] => True
  | resid, l :: ls =>
      SPA_MINBLOCKSIZE ≤ l ∧ l ≤ resid ∧ gangSizesOk (resid - l) ls

/-- A block pointer, reduced to the fields the unallocation path reads: the
BP_IS_HOLE predicate and an identity for stating set membership. -/
structure Blkptr where
  is_hole : Bool
  ident : Nat
deriving DecidableEq

/-- A gang tree as built by the write path: gn_gbh holds SPA_GBH_NBLKPTRS
block pointers and gn_child the matching child nodes, a null child standing
for a non-gang constituent.  nullp is a NULL zio_gang_node pointer. -/
inductive ZioGangNode where
  | nullp : ZioGangNode
  | node : List (Blkptr × ZioGangNode) → ZioGangNode

mutual
/-- zio_dva_unallocate (zio.c lines 2484-2499): the sequence of blocks given
back to the allocator in order, the block pointer itself first when it is
not a hole, then recursively every entry of the gang tree below it. -/
def zio_dva_unallocate : ZioGangNode → Blkptr → List Blkptr
  | .nullp, bp => if bp.is_hole then [] else [bp]
  | .node entries, bp =>
      (if bp.is_hole then [] else [bp]) ++ zio_dva_unallocate_entries entries

/-- The loop over the SPA_GBH_NBLKPTRS slots of one gang header. -/
def zio_dva_unallocate_entries : List (Blkptr × ZioGangNode) → List Blkptr
  | [] => []
  | (b, g) :: rest => zio_dva_unallocate g b ++ zio_dva_unallocate_entries rest
end

mutual
/-- Every block pointer recorded in a gang tree. -/
def gangTreeBlkptrs : ZioGangNode → List Blkptr
  | .nullp => []
  | .node entries => gangEntryBlkptrs entries

/-- Every block pointer recorded in a list of gang-header slots. -/
def gangEntryBlkptrs : List (Blkptr × ZioGangNode) → List Blkptr
  | [] => []
  | (b, g) :: rest => b :: (gangTreeBlkptrs g ++ gangEntryBlkptrs rest)
end

/-! ## The tail of zio_done (zio.c lines 3206-3335) -/

/-- The fields of a request that the unallocation decision of zio_done
reads: the final error, the reexecute mode, IO_IS_ALLOCATING, whether the
request is its own gang leader, the ZIO_FLAG_IO_REWRITE and
ZIO_FLAG_NOPWRITE flags, the gang tree and the block pointer. -/
structure ZioDoneView where
  io_error : Nat
  io_reexecute : Nat
  is_allocating : Bool
  gang_leader_self : Bool
  flag_io_rewrite : Bool
  flag_nopwrite : Bool
  io_gang_tree : ZioGangNode
  io_bp : Blkptr

/-- The guard of the zio_dva_unallocate call in zio_done (lines 3206-3208). -/
def zio_done_unallocate_guard (z : ZioDoneView) : Prop :=
  (z.io_error ≠ 0 ∨ z.io_reexecute ≠ 0) ∧ z.is_allocating = true ∧
    z.gang_leader_self = true ∧ z.flag_io_rewrite = false ∧ z.flag_nopwrite = false

instance (z : ZioDoneView) : Decidable (zio_done_unallocate_guard z) := by
  unfold zio_done_unallocate_guard; infer_instance

/-- The externally visible actions of the tail of zio_done, in program
order: free is one metaslab_free issued by zio_dva_unallocate;
reexecute_or_suspend stands for the whole reexecution branch (lines
3220-3289: godfather handling, parent notification, suspension or the
reexecute dispatch); notify_caller stands for the completion branch (lines
3296-3333: the done callback, parent notification and waiter wake-up). -/
inductive DoneAction where
  | free (bp : Blkptr)
  | reexecute_or_suspend
  | notify_caller
deriving DecidableEq

/-- The action sequence of the tail of zio_done: the unallocation happens
first, under its guard, and only then is either branch that can reach the
caller taken. -/
def zio_done_tail (z : ZioDoneView) : List DoneAction :=
  (if zio_done_unallocate_guard z then
      (zio_dva_unallocate z.io_gang_tree z.io_bp).map DoneAction.free
    else []) ++
    (if z.io_reexecute ≠ 0 then [DoneAction.reexecute_or_suspend]
      else [DoneAction.notify_caller])

/-! ## The pipeline execution loop (zio.c, zio_execute, lines 1373-1418)

A stage is the power-of-two bit of enum zio_stage; the zio_pipeline table of
zio.c lists the 22 stages, ZIO_STAGE_OPEN first (bit 0) and ZIO_STAGE_DONE
last (bit 21). -/

def ZIO_STAGE_OPEN : Nat := 2 ^ 0

def ZIO_STAGE_DONE : Nat := 2 ^ 21

/-- The inner do-while of zio_execute (lines 1387-1389): shift the stage
left until a bit of the pipeline mask is hit.  The C loop is unbounded and
relies on the pipeline containing ZIO_STAGE_DONE above the current stage;
the model carries a fuel argument and the theorems show 22 steps always
suffice under that invariant. -/
def zio_next_stage_go (pipeline : Nat) : Nat → Nat → Option Nat
  | _, 0 => none
  | stage, fuel + 1 =>
      let s := stage * 2
      if s &&& pipeline ≠ 0 then some s else zio_next_stage_go pipeline s fuel

def zio_next_stage (pipeline stage : Nat) : Option Nat :=
  zio_next_stage_go pipeline stage 22

/-- The while-loop of zio_execute.  The handler oracle abstracts the
zio_pipeline stage handlers: true is ZIO_PIPELINE_CONTINUE, false is
ZIO_PIPELINE_STOP.  The result is the stage at which the loop ended and the
number of stage transitions taken; none only on fuel exhaustion, shown
unreachable. -/
def zio_execute_go (handler : Nat → Bool) (pipeline : Nat) :
    Nat → Nat → Option (Nat × Nat)
  | 0, _ => none
  | fuel + 1, stage =>
      if stage < ZIO_STAGE_DONE then
        match zio_next_stage pipeline stage with
        | none => none
        | some s =>
            if handler s then
              match zio_execute_go handler pipeline fuel s with
              | none => none
              | some (fin, n) => some (fin, n + 1)
            else some (s, 1)
      else some (stage, 0)

def zio_execute (handler : Nat → Bool) (pipeline stage : Nat) : Option (Nat × Nat) :=
  zio_execute_go handler pipeline 22 stage

/-! ## The parent/child completion protocol (zio.c)

One pipeline request observed through the counters the code itself keeps:
io_child_count splits into the linked children still executing (running) and
the linked children that already notified DONE from the reexecute branch of
their own zio_done without removing their link (reexec_notified); done_wait
is the sum over child types of io_children[c][ZIO_WAIT_DONE]; reexecute is
whether io_reexecute is nonzero; state_done is io_state[ZIO_WAIT_DONE];
reexec_pending is the parked interval between the reexecute branch of
zio_done and the zio_reexecute call it hands off to; done_entries and
final_entries count, for the stated properties, how often the done stage was
entered past its child-wait gate and how often its completion branch ran. -/
structure ZioLifeState where
  added : Nat
  removed : Nat
  running : Nat
  reexec_notified : Nat
  done_wait : Nat
  reexecute : Bool
  state_done : Bool
  reexec_pending : Bool
  finished : Bool
  done_entries : Nat
  final_entries : Nat
deriving DecidableEq

/-- A freshly created request: no children, no error, nothing entered. -/
def zioLifeInit : ZioLifeState :=
  { added := 0, removed := 0, running := 0, reexec_notified := 0, done_wait := 0,
    reexecute := false, state_done := false, reexec_pending := false,
    finished := false, done_entries := 0, final_entries := 0 }

/-- One event of the completion protocol, seen from one parent request.
Constructors and their source lines:
add_child is zio_add_child (443-475): guarded by the assertion that the
parent has not completed, it links a fresh child and raises the wait counts.
child_done is the completion loop of a child's zio_done (3319-3324): the
child removes its link and notifies DONE.
child_reexec is the reexecute branch of a child's zio_done (3260-3268): the
child notifies DONE without removing its link, and zio_notify_parent
(line 525) ors the child's nonzero io_reexecute into the parent.
done_reexec is the parent's own zio_done entering its reexecute branch
(3074-3078 gate, 3220-3289): it may only run once the wait counts are zero,
marks io_state[DONE] and parks the request for reexecution.
done_final is the parent's zio_done completion branch (3292-3335).
reexec is zio_reexecute (1474-1521): it clears the reexecute state, raises
the wait counts again for every still-linked child (1505-1511) and restarts
those children. -/
inductive ZioLifeStep : ZioLifeState → ZioLifeState → Prop where
  | add_child (s : ZioLifeState) (h : s.state_done = false) :
      ZioLifeStep s { s with
        added := s.added + 1, running := s.running + 1, done_wait := s.done_wait + 1 }
  | child_done (s : ZioLifeState) (h : 0 < s.running) :
      ZioLifeStep s { s with
        removed := s.removed + 1, running := s.running - 1,
        done_wait := s.done_wait - 1 }
  | child_reexec (s : ZioLifeState) (h : 0 < s.running) :
      ZioLifeStep s { s with
        running := s.running - 1, reexec_notified := s.reexec_notified + 1,
        done_wait := s.done_wait - 1, reexecute := true }
  | done_reexec (s : ZioLifeState) (hw : s.done_wait = 0) (hr : s.reexecute = true)
      (hf : s.finished = false) (hp : s.reexec_pending = false) :
      ZioLifeStep s { s with
        state_done := true, reexec_pending := true,
        done_entries := s.done_entries + 1 }
  | done_final (s : ZioLifeState) (hw : s.done_wait = 0) (hr : s.reexecute = false)
      (hf : s.finished = false) (hp : s.reexec_pending = false) :
      ZioLifeStep s { s with
        state_done := true, finished := true,
        done_entries := s.done_entries + 1, final_entries := s.final_entries + 1 }
  | reexec (s : ZioLifeState) (hp : s.reexec_pending = true) :
      ZioLifeStep s { s with
        reexec_pending := false, state_done := false, reexecute := false,
        done_wait := s.done_wait + s.running + s.reexec_notified,
        running := s.running + s.reexec_notified, reexec_notified := 0 }

/-- The states one request can reach over its whole lifetime. -/
def ZioLifeReachable (s : ZioLifeState) : Prop :=
  Relation.ReflTransGen ZioLifeStep zioLifeInit s

/-- The inductive invariant of the completion protocol: the DONE wait count
is the number of linked children still running; the child links balance the
add and remove counts; a linked child that notified from its reexecute
branch forces the parent's reexecute state on; a parked request has its
done state set, is not finished and has no running child; a finished
request has no links left and balanced add/remove counts; and the
completion branch has run exactly once on a finished request, never
before. -/
def zioLifeInv (s : ZioLifeState) : Prop :=
  s.done_wait = s.running
  ∧ s.added = s.removed + s.running + s.reexec_notified
  ∧ (0 < s.reexec_notified → s.reexecute = true)
  ∧ (s.reexec_pending = true → s.state_done = true ∧ s.finished = false ∧
      s.running = 0)
  ∧ (s.finished = true → s.state_done = true ∧ s.running = 0 ∧
      s.reexec_notified = 0 ∧ s.reexec_pending = false ∧ s.added = s.removed)
  ∧ s.final_entries = (if s.finished then 1 else 0)

/-! ## Aggregation (vdev_queue.c, vdev_queue_aggregate, lines 591-741)

One queued request as the aggregation loops see it: its offset and size, its
ZIO_FLAG_AGG_INHERIT flag set and its ZIO_FLAG_OPTIONAL flag.  The class's
vqc_queued_tree is modelled as the list of its members in AVL (offset)
order; AVL_PREV and AVL_NEXT become index steps. -/
structure AggIo where
  io_offset : Nat
  io_size : Nat
  agg_flags : Nat
  optional : Bool
deriving DecidableEq

/-- IO_SPAN (vdev_queue.c line 588): the endpoint of the last i/o minus the
start of the first.  The C macro computes in uint64; the model uses Int, and
the unsigned comparisons of the walk conditions are rendered by uleq
below. -/
def IO_SPAN (fio lio : AggIo) : Int :=
  (lio.io_offset : Int) + lio.io_size - fio.io_offset

/-- IO_GAP (vdev_queue.c line 589): minus the span taken backwards, the gap
between the end of fio and the start of lio. -/
def IO_GAP (fio lio : AggIo) : Int :=
  (lio.io_offset : Int) - ((fio.io_offset : Int) + fio.io_size)

/-- The meaning of the unsigned comparison x <= bound of the walk
conditions for the quantities arising in an offset-sorted queue: a negative
Int value wraps to a huge uint64 and fails the comparison, so the unsigned
test holds exactly when the value is between 0 and the bound. -/
def uleq (x : Int) (bound : Nat) : Prop := 0 ≤ x ∧ x ≤ (bound : Nat)

instance (x : Int) (bound : Nat) : Decidable (uleq x bound) := by
  unfold uleq; infer_instance

/-- One walk-extension test of vdev_queue_aggregate: the member at flagIdx
matches the AGG_INHERIT flavor of the starting request, the span from
spanLo to spanHi stays within the aggregation limit and the gap from gapLo
to gapHi within maxgap; false as well when any index walks off the tree
(AVL_PREV or AVL_NEXT returned NULL). -/
def agg_condb (t : List AggIo) (flags limit maxgap : Nat)
    (flagIdx spanLo spanHi gapLo gapHi : Nat) : Bool :=
  match t.get? flagIdx, t.get? spanLo, t.get? spanHi, t.get? gapLo, t.get? gapHi with
  | some d, some sl, some sh, some gl, some gh =>
      decide (d.agg_flags = flags ∧ uleq (IO_SPAN sl sh) limit ∧
        uleq (IO_GAP gl gh) maxgap)
  | _, _, _, _, _ => false

/-- The backward walk of vdev_queue_aggregate (lines 641-648): from the
first index, step to the previous queue member while it matches the
AGG_INHERIT flavor, keeps IO_SPAN(dio, last) within the aggregation limit
and IO_GAP(dio, first) within maxgap; lastIdx stays the starting request
throughout this walk. -/
def agg_walk_back (t : List AggIo) (flags : Nat) (limit maxgap : Nat)
    (lastIdx : Nat) : Nat → Nat
  | 0 => 0
  | f + 1 =>
      if agg_condb t flags limit maxgap f f lastIdx f (f + 1) then
        agg_walk_back t flags limit maxgap lastIdx f
      else f + 1

/-- The skip over initial optional i/os (lines 653-656): advance first while
it is optional and has not reached the starting request. -/
def agg_skip_optional (t : List AggIo) (lastIdx : Nat) : Nat → Nat → Nat
  | 0, f => f
  | fuel + 1, f =>
      if f < lastIdx then
        match t.get? f with
        | some first =>
            if first.optional then agg_skip_optional t lastIdx fuel (f + 1) else f
        | none => f
      else f

/-- The forward walk (lines 661-668): extend last to the next queue member
while it matches the flavor, keeps IO_SPAN(first, dio) within the
aggregation limit and IO_GAP(last, dio) within maxgap. -/
def agg_walk_forward (t : List AggIo) (flags : Nat) (limit maxgap : Nat)
    (firstIdx : Nat) : Nat → Nat → Nat
  | 0, l => l
  | fuel + 1, l =>
      if agg_condb t flags limit maxgap (l + 1) firstIdx (l + 1) l (l + 1) then
        agg_walk_forward t flags limit maxgap firstIdx fuel (l + 1)
      else l

/-- The mandatory variable of vdev_queue_aggregate: the latest non-optional
member at or before l, not before f; none when the scanned range holds only
optional i/os (the variable stays NULL). -/
def agg_last_mandatory (t : List AggIo) (f : Nat) : Nat → Option Nat
  | 0 =>
      if f = 0 then
        match t.get? 0 with
        | some a => if a.optional = false then some 0 else none
        | none => none
      else none
  | l + 1 =>
      if f ≤ l + 1 then
        match t.get? (l + 1) with
        | some a =>
            if a.optional = false then some (l + 1) else agg_last_mandatory t f l
        | none => agg_last_mandatory t f l
      else none

/-- The stretch scan (lines 681-691): from nio, follow strictly adjacent
queue members (IO_GAP(nio, dio) == 0) that stay within the write gap limit
of the last mandatory member; true as soon as a non-optional member is
found. -/
def agg_stretch (t : List AggIo) (mandIdx : Nat) (wgl : Nat) : Nat → Nat → Bool
  | 0, _ => false
  | fuel + 1, n =>
      match t.get? (n + 1), t.get? n, t.get? mandIdx with
      | some dio, some nio, some man =>
          if IO_GAP nio dio = 0 ∧ uleq (IO_GAP man dio) wgl then
            if dio.optional = false then true
            else agg_stretch t mandIdx wgl fuel (n + 1)
          else false
      | _, _, _ => false

/-- The trailing trim (lines 699-704): walk last back until it is the
mandatory member or first. -/
def agg_trim (f : Nat) (mand : Option Nat) : Nat → Nat
  | 0 => 0
  | l + 1 =>
      if some (l + 1) ≠ mand ∧ l + 1 ≠ f ∧ f < l + 1 then agg_trim f mand l
      else l + 1

/-- An offset-sorted, non-overlapping queued tree: each member ends at or
before the next one starts (the AVL tree of one class is offset-ordered and
its members do not overlap). -/
def AggQueueWF (t : List AggIo) : Prop :=
  List.Pairwise (fun a b => a.io_offset + a.io_size ≤ b.io_offset) t

/-- The result of vdev_queue_aggregate when it builds an aggregate: the
index range of the members delegated to the aggregate i/o, and whether the
trailing-optional stretch was taken (in which case the source also clears
ZIO_FLAG_OPTIONAL on the member following last). -/
structure AggResult where
  first : Nat
  last : Nat
  stretched : Bool
deriving DecidableEq

/-- vdev_queue_aggregate (lines 591-741) for the request at index i of the
queued tree t of class p, of operation type typ; dont_aggregate is its
ZIO_FLAG_DONT_AGGREGATE flag.  none when no aggregate is built. -/
def vdev_queue_aggregate (P : VdevParams) (t : List AggIo) (typ : ZioType)
    (p : ZioPriority) (i : Nat) (dont_aggregate : Bool) : Option AggResult :=
  if dont_aggregate then none
  else if p = .syncRead ∨ p = .syncWrite then none
  else
    match t.get? i with
    | none => none
    | some zio =>
        let maxgap := if typ = .read then P.zfs_vdev_read_gap_limit else 0
        let flags := zio.agg_flags
        let f0 := agg_walk_back t flags P.zfs_vdev_aggregation_limit maxgap i i
        let f1 := agg_skip_optional t i i f0
        let l0 := agg_walk_forward t flags P.zfs_vdev_aggregation_limit maxgap f1
          t.length i
        let mand := agg_last_mandatory t f1 l0
        let stretch :=
          match typ, mand with
          | .write, some m => agg_stretch t m P.zfs_vdev_write_gap_limit t.length l0
          | _, _ => false
        let l1 := if stretch then l0 else agg_trim f1 mand l0
        if f1 = l1 then none else some { first := f1, last := l1, stretched := stretch }

/-! ## Recursive gang splitting under a bounded allocator (zio.c,
zio_dva_allocate lines 2416-2457 with zio_write_gang_block lines 1910-1984) -/

/-- Modelled from the spec: the allocator service is external ("allocate
(size, replica_count, txg) -> block_pointer | ENOSPC"); for the stated
scenario it grants at most grant contiguous bytes, so zio_dva_allocate
receives ENOSPC for anything larger and, the size being above
SPA_MINBLOCKSIZE, splits via zio_write_gang_block (lines 2451-2452); each
child is a zio_write that allocates the same way.  The function lists the
leaf (non-gang) child sizes of the worklist of sizes; the fuel bounds the
recursion depth and is chosen ample in the theorems. -/
def gang_leaves (grant : Nat) : Nat → List Nat → List Nat
  | _, [] => []
  | 0, sizes => sizes
  | fuel + 1, size :: rest =>
      (if size ≤ grant then [size]
        else gang_leaves grant fuel (zio_write_gang_sizes size)) ++
        gang_leaves grant fuel rest

/-- Modelled from the spec: the number of gang headers created while the
worklist of sizes is written under a grant-bounded allocator; each
zio_write_gang_block call creates exactly one header (the zio_rewrite of
lines 1946-1950). -/
def gang_headers (grant : Nat) : Nat → List Nat → Nat
  | _, [] => 0
  | 0, _ => 0
  | fuel + 1, size :: rest =>
      (if size ≤ grant then 0
        else 1 + gang_headers grant fuel (zio_write_gang_sizes size)) +
        gang_headers grant fuel rest

/-- The tunables at their source defaults. -/
def vdevParamsDefault : VdevParams := {}

/-!
# Theorems

Helper lemmas come first inside each claim's group; each claim is settled by
the one theorem named after it.
-/

/-- C1: a completing pipeline request with a nonzero error and without
ZIO_FLAG_DONT_PROPAGATE makes each parent record, for the child's role, the
worst of the previously recorded and the incoming error; the ranking is the
fixed 0 < ENXIO < ECKSUM < EIO < any other error; and a parent whose own
error is zero inherits the recorded child error at its done stage. -/
theorem c1_worst_error_propagation (pio zio zd : Zio) (c : ZioChild)
    (he : zio.io_error ≠ 0) (hf : zio.dont_propagate = false)
    (hz : zd.io_error = 0) :
    (zio_notify_parent pio zio).io_child_error zio.io_child_type
        = zio_worst_error (pio.io_child_error zio.io_child_type) zio.io_error
    ∧ (zio_inherit_child_errors zd c).io_error = zd.io_child_error c
    ∧ (∀ e1 e2, zio_worst_error e1 e2 = e1 ∨ zio_worst_error e1 e2 = e2)
    ∧ (∀ e1 e2, errRank (zio_worst_error e1 e2) = max (errRank e1) (errRank e2))
    ∧ errRank 0 = 0 ∧ errRank enxio = 1 ∧ errRank ecksum = 2 ∧ errRank eio = 3
    ∧ (∀ e, e ≠ 0 → e ≠ enxio → e ≠ ecksum → e ≠ eio → errRank e = 4) := by
  refine ⟨?_, ?_, ?_, ?_, by decide, by decide, by decide, by decide, ?_⟩
  · simp [zio_notify_parent, he, hf]
  · by_cases h : zd.io_child_error c = 0
    · simp [zio_inherit_child_errors, h, hz]
    · simp [zio_inherit_child_errors, h, hz]
  · intro e1 e2
    unfold zio_worst_error
    split
    · exact Or.inl rfl
    · exact Or.inr rfl
  · intro e1 e2
    unfold zio_worst_error
    split
    · rename_i h
      exact (Nat.max_eq_left h.le).symm
    · rename_i h
      exact (Nat.max_eq_right (Nat.le_of_not_lt h)).symm
  · intro e h0 h1 h2 h3
    simp [errRank, zio_error_rank, zio_error_rank_index, h0, h1, h2, h3]

/-- Witness for C1 at concrete errors: a parent holding ENXIO for its vdev
children that is notified of an EIO child records EIO, and a parent with no
error of its own inherits a recorded ECKSUM. -/
theorem c1_worst_error_propagation_witness :
    (zio_notify_parent ⟨0, 0, .vdev, false, fun _ => enxio⟩
        ⟨eio, 0, .vdev, false, fun _ => 0⟩).io_child_error .vdev
      = zio_worst_error enxio eio := by
  have h := c1_worst_error_propagation ⟨0, 0, .vdev, false, fun _ => enxio⟩
    ⟨eio, 0, .vdev, false, fun _ => 0⟩ ⟨0, 0, .vdev, false, fun _ => ecksum⟩
    .gang (by decide) rfl rfl
  exact h.1

/-- C6 as stated is false on the source: with a pending synchronous task
(spa_has_pending_synctask) the source returns the configured maximum even
though no dirty data at all is outstanding, where the claimed pure
interpolation formula gives the configured minimum. -/
theorem c6_counterexample :
    vdev_queue_max_async_writes vdevParamsDefault 0 true = 10
    ∧ async_writes_spec_formula vdevParamsDefault 0 = 1
    ∧ vdev_queue_max_async_writes vdevParamsDefault 0 true ≠
        async_writes_spec_formula vdevParamsDefault 0 := by
  refine ⟨by decide, by decide, by decide⟩

/-- C6 amended: in every pool state with no pending synchronous task, the
async-write concurrency bound is exactly the claimed piece-wise formula --
the configured minimum below the low dirty threshold, the configured maximum
above the high one, the integer linear interpolation in between -- and the
value stays between the two configured bounds. -/
theorem c6_async_write_max_amended (P : VdevParams) (dirty : Nat)
    (hb : P.zfs_vdev_async_write_min_active ≤ P.zfs_vdev_async_write_max_active) :
    vdev_queue_max_async_writes P dirty false = async_writes_spec_formula P dirty
    ∧ P.zfs_vdev_async_write_min_active ≤ vdev_queue_max_async_writes P dirty false
    ∧ vdev_queue_max_async_writes P dirty false ≤
        P.zfs_vdev_async_write_max_active := by
  unfold vdev_queue_max_async_writes async_writes_spec_formula
  set minb := P.zfs_dirty_data_max *
    P.zfs_vdev_async_write_active_min_dirty_percent / 100 with hminb
  set maxb := P.zfs_dirty_data_max *
    P.zfs_vdev_async_write_active_max_dirty_percent / 100 with hmaxb
  simp only [Bool.false_eq_true, if_false]
  by_cases h1 : dirty < minb
  · simp [h1, hb]
  · by_cases h2 : dirty > maxb
    · simp [h1, h2, hb]
    · have hd : dirty - minb ≤ maxb - minb := by omega
      have hdiv : (dirty - minb) *
          (P.zfs_vdev_async_write_max_active - P.zfs_vdev_async_write_min_active) /
          (maxb - minb) ≤
          P.zfs_vdev_async_write_max_active - P.zfs_vdev_async_write_min_active := by
        rcases Nat.eq_zero_or_pos (maxb - minb) with hz | hpos
        · have : dirty - minb = 0 := by omega
          simp [this, hz]
        · calc (dirty - minb) *
              (P.zfs_vdev_async_write_max_active - P.zfs_vdev_async_write_min_active) /
              (maxb - minb)
              ≤ (maxb - minb) *
                (P.zfs_vdev_async_write_max_active - P.zfs_vdev_async_write_min_active) /
                (maxb - minb) :=
                Nat.div_le_div_right (Nat.mul_le_mul_right _ hd)
            _ = P.zfs_vdev_async_write_max_active - P.zfs_vdev_async_write_min_active :=
                Nat.mul_div_cancel_left _ hpos
      simp only [h1, h2, if_false]
      set q := (dirty - minb) *
        (P.zfs_vdev_async_write_max_active - P.zfs_vdev_async_write_min_active) /
        (maxb - minb) with hq
      refine ⟨Nat.add_comm _ _, Nat.le_add_left _ _, by omega⟩

/-- Witness for C6 amended at the default tunables and zero dirty data. -/
theorem c6_async_write_max_amended_witness :
    vdev_queue_max_async_writes vdevParamsDefault 0 false =
      async_writes_spec_formula vdevParamsDefault 0 :=
  (c6_async_write_max_amended vdevParamsDefault 0 (by decide)).1

/-- C10: every request entering the scheduler without ZIO_FLAG_DONT_QUEUE is
normalized to one of the six queueable classes -- a read whose priority is
not sync-read, async-read or scrub becomes async-read, a write whose
priority is not sync-write or async-write becomes async-write, a free
becomes trim -- so the insertion precondition io_priority <
ZIO_PRIORITY_NUM_QUEUEABLE always holds. -/
theorem c10_priority_normalized (t : ZioType) (p : ZioPriority) :
    zio_priority_code (vdev_queue_io_fixup_priority t p) < ZIO_PRIORITY_NUM_QUEUEABLE
    ∧ (t = .read ∧ (p = .syncRead ∨ p = .asyncRead ∨ p = .scrub) →
        vdev_queue_io_fixup_priority t p = p)
    ∧ (t = .read ∧ ¬(p = .syncRead ∨ p = .asyncRead ∨ p = .scrub) →
        vdev_queue_io_fixup_priority t p = .asyncRead)
    ∧ (t = .write ∧ (p = .syncWrite ∨ p = .asyncWrite) →
        vdev_queue_io_fixup_priority t p = p)
    ∧ (t = .write ∧ ¬(p = .syncWrite ∨ p = .asyncWrite) →
        vdev_queue_io_fixup_priority t p = .asyncWrite)
    ∧ (t = .free → vdev_queue_io_fixup_priority t p = .trim) := by
  cases t <;> cases p <;> decide

/-- Witness for C10: a free request carrying the non-queueable
ZIO_PRIORITY_NOW is queued as trim, below the class count. -/
theorem c10_priority_normalized_witness :
    zio_priority_code (vdev_queue_io_fixup_priority .free .now) <
      ZIO_PRIORITY_NUM_QUEUEABLE :=
  (c10_priority_normalized .free .now).1

/-- A selected class always means the aggregate active maximum had not been
reached (the first check of vdev_queue_class_to_issue). -/
theorem class_to_issue_some_active_lt (P : VdevParams) (dirty : Nat)
    (pending : Bool) (vq : VdevQueue) (p : ZioPriority)
    (h : vdev_queue_class_to_issue P dirty pending vq = some p) :
    vq.vq_active_tree < P.zfs_vdev_max_active := by
  by_contra hge
  unfold vdev_queue_class_to_issue at h
  rw [if_pos (Nat.le_of_not_lt hge)] at h
  exact Option.noConfusion h

/-- Every scheduler event keeps the device-wide active count at or below the
aggregate maximum. -/
theorem vqstep_preserves_active_le (P : VdevParams) (dirty : Nat) (pending : Bool)
    (s t : VdevQueue) (hs : VQStep P dirty pending s t)
    (hb : s.vq_active_tree ≤ P.zfs_vdev_max_active) :
    t.vq_active_tree ≤ P.zfs_vdev_max_active := by
  cases hs with
  | enqueue p hp => exact hb
  | issue p k hp hk hq =>
      have := class_to_issue_some_active_lt P dirty pending s p hp
      simp only [vdev_queue_pending_add, vdev_queue_io_remove_n]
      omega
  | bypass p k hp hk hq => exact hb
  | complete p h =>
      simp only [vdev_queue_pending_remove]
      omega

/-- A scheduler event that grows the active set is an issue, and its guard
had seen the active count strictly below the aggregate maximum. -/
theorem vqstep_growth_saw_below_max (P : VdevParams) (dirty : Nat) (pending : Bool)
    (s t : VdevQueue) (hs : VQStep P dirty pending s t)
    (hlt : s.vq_active_tree < t.vq_active_tree) :
    s.vq_active_tree < P.zfs_vdev_max_active := by
  cases hs with
  | enqueue p hp => exact absurd hlt (by simp [vdev_queue_io_add])
  | issue p k hp hk hq => exact class_to_issue_some_active_lt P dirty pending s p hp
  | bypass p k hp hk hq => exact absurd hlt (by simp [vdev_queue_io_remove_n])
  | complete p h =>
      exact absurd hlt (by simp only [vdev_queue_pending_remove]; omega)

/-- C2: on every trace of enqueue, issue, bypass and completion events from
an empty leaf-device queue, the number of concurrently active operations
never exceeds the configured aggregate maximum zfs_vdev_max_active, and any
event that moves a request into the active set did so only after the
issue-selection check saw the active count strictly below that maximum. -/
theorem c2_active_never_exceeds_max (P : VdevParams) (dirty : Nat) (pending : Bool)
    (t : VdevQueue)
    (h : Relation.ReflTransGen (VQStep P dirty pending) vdev_queue_empty t) :
    t.vq_active_tree ≤ P.zfs_vdev_max_active
    ∧ ∀ u, VQStep P dirty pending t u → t.vq_active_tree < u.vq_active_tree →
        t.vq_active_tree < P.zfs_vdev_max_active := by
  have hb : t.vq_active_tree ≤ P.zfs_vdev_max_active := by
    induction h with
    | refl => exact Nat.zero_le _
    | tail hsteps hstep ih => exact vqstep_preserves_active_le P dirty pending _ _ hstep ih
  exact ⟨hb, fun u hu hlt => vqstep_growth_saw_below_max P dirty pending t u hu hlt⟩

/-- Witness for C2: the empty queue itself, reached by the empty trace. -/
theorem c2_active_never_exceeds_max_witness :
    vdev_queue_empty.vq_active_tree ≤ vdevParamsDefault.zfs_vdev_max_active :=
  (c2_active_never_exceeds_max vdevParamsDefault 0 false vdev_queue_empty
    Relation.ReflTransGen.refl).1

/-- A successful find? returns the first list entry satisfying the
predicate: everything at a smaller index fails it. -/
theorem list_find?_first {α : Type} (f : α → Bool) :
    ∀ (l : List α) (a : α), l.find? f = some a →
      ∃ i, l.get? i = some a ∧ f a = true ∧
        ∀ j b, j < i → l.get? j = some b → f b = false := by
  intro l
  induction l with
  | nil => intro a h; exact absurd h (by simp)
  | cons x xs ih =>
      intro a h
      by_cases hx : f x = true
      · rw [List.find?_cons_of_pos _ hx] at h
        obtain rfl : x = a := by injection h
        exact ⟨0, rfl, hx, fun j b hj _ => absurd hj (Nat.not_lt_zero j)⟩
      · rw [List.find?_cons_of_neg _ hx] at h
        obtain ⟨i, hg, hfa, hprev⟩ := ih a h
        refine ⟨i + 1, by simpa using hg, hfa, fun j b hj hb => ?_⟩
        cases j with
        | zero =>
            obtain rfl : x = b := by simpa using hb
            exact eq_false_of_ne_true hx
        | succ j => exact hprev j b (by omega) (by simpa using hb)

/-- Each queueable class sits in priorityOrder at the index of its
enumerator value. -/
theorem priorityOrder_get_code (q : ZioPriority) (hq : q ∈ priorityOrder) :
    priorityOrder.get? (zio_priority_code q) = some q := by
  cases q <;> first
    | rfl
    | exact absurd hq (by decide)

/-- Conversely, the entry at index i of priorityOrder has enumerator value
i and is a member. -/
theorem priorityOrder_code_of_get (i : Nat) (a : ZioPriority)
    (h : priorityOrder.get? i = some a) :
    zio_priority_code a = i ∧ a ∈ priorityOrder := by
  have hlen : i < priorityOrder.length := by
    by_contra hge
    rw [List.get?_eq_none.mpr (Nat.le_of_not_lt hge)] at h
    exact Option.noConfusion h
  have h6 : i < 6 := by simpa [priorityOrder] using hlen
  interval_cases i <;>
    · simp only [priorityOrder, List.get?] at h
      obtain rfl : _ = a := by injection h
      exact ⟨rfl, by decide⟩

/-- C3: each issue selection returns the highest-priority class with queued
requests whose active count is below that class's minimum; failing that, the
highest-priority class with queued requests below its maximum; and nothing
when the aggregate device maximum is reached or no class qualifies. -/
theorem c3_class_to_issue_selection (P : VdevParams) (dirty : Nat)
    (pending : Bool) (vq : VdevQueue) :
    (P.zfs_vdev_max_active ≤ vq.vq_active_tree →
      vdev_queue_class_to_issue P dirty pending vq = none)
    ∧ (∀ p, vdev_queue_class_to_issue P dirty pending vq = some p →
        ((0 < vq.vqc_queued p ∧ vq.vqc_active p < vdev_queue_class_min_active P p ∧
            ∀ q, q ∈ priorityOrder → zio_priority_code q < zio_priority_code p →
              ¬(0 < vq.vqc_queued q ∧
                vq.vqc_active q < vdev_queue_class_min_active P q))
          ∨ ((∀ q, q ∈ priorityOrder →
                ¬(0 < vq.vqc_queued q ∧
                  vq.vqc_active q < vdev_queue_class_min_active P q))
              ∧ 0 < vq.vqc_queued p ∧
              vq.vqc_active p < vdev_queue_class_max_active P dirty pending p ∧
              ∀ q, q ∈ priorityOrder → zio_priority_code q < zio_priority_code p →
                ¬(0 < vq.vqc_queued q ∧
                  vq.vqc_active q < vdev_queue_class_max_active P dirty pending q))))
    ∧ (vdev_queue_class_to_issue P dirty pending vq = none →
        P.zfs_vdev_max_active ≤ vq.vq_active_tree ∨
          ∀ q, q ∈ priorityOrder →
            ¬(0 < vq.vqc_queued q ∧
              vq.vqc_active q < vdev_queue_class_max_active P dirty pending q)) := by
  refine ⟨?_, ?_, ?_⟩
  · intro hge
    unfold vdev_queue_class_to_issue
    rw [if_pos hge]
  · intro p h
    unfold vdev_queue_class_to_issue at h
    by_cases hge : vq.vq_active_tree ≥ P.zfs_vdev_max_active
    · rw [if_pos hge] at h; exact Option.noConfusion h
    · rw [if_neg hge] at h
      cases hf1 : priorityOrder.find? (fun p =>
          decide (0 < vq.vqc_queued p ∧
            vq.vqc_active p < vdev_queue_class_min_active P p)) with
      | some q =>
          rw [hf1] at h
          obtain rfl : q = p := by injection h
          obtain ⟨i, hg, hfa, hprev⟩ := list_find?_first _ _ _ hf1
          obtain ⟨hcode, _⟩ := priorityOrder_code_of_get i q hg
          refine Or.inl ⟨(of_decide_eq_true hfa).1, (of_decide_eq_true hfa).2, ?_⟩
          intro r hr hlt
          have hgr := priorityOrder_get_code r hr
          have := hprev (zio_priority_code r) r (by omega) hgr
          exact of_decide_eq_false this
      | none =>
          rw [hf1] at h
          have hall : ∀ q, q ∈ priorityOrder →
              ¬(0 < vq.vqc_queued q ∧
                vq.vqc_active q < vdev_queue_class_min_active P q) := by
            intro q hq
            have := List.find?_eq_none.mp hf1 q hq
            exact fun hcon => this (by exact decide_eq_true hcon)
          obtain ⟨i, hg, hfa, hprev⟩ := list_find?_first _ _ _ h
          obtain ⟨hcode, _⟩ := priorityOrder_code_of_get i p hg
          refine Or.inr ⟨hall, (of_decide_eq_true hfa).1, (of_decide_eq_true hfa).2, ?_⟩
          intro r hr hlt
          have hgr := priorityOrder_get_code r hr
          have := hprev (zio_priority_code r) r (by omega) hgr
          exact of_decide_eq_false this
  · intro h
    unfold vdev_queue_class_to_issue at h
    by_cases hge : vq.vq_active_tree ≥ P.zfs_vdev_max_active
    · exact Or.inl hge
    · rw [if_neg hge] at h
      cases hf1 : priorityOrder.find? (fun p =>
          decide (0 < vq.vqc_queued p ∧
            vq.vqc_active p < vdev_queue_class_min_active P p)) with
      | some q => rw [hf1] at h; exact Option.noConfusion h
      | none =>
          rw [hf1] at h
          refine Or.inr ?_
          intro q hq
          have := List.find?_eq_none.mp h q hq
          exact fun hcon => this (by exact decide_eq_true hcon)

/-- A power-of-two mask meets a word exactly when the corresponding bit of
the word is set. -/
theorem two_pow_land_ne_zero (k n : Nat) : (2 ^ k &&& n ≠ 0) ↔ n.testBit k = true := by
  rw [Nat.two_pow_and]
  cases h : n.testBit k <;> simp [h]

/-- The stage-advance loop of zio_execute: started below ZIO_STAGE_DONE on a
pipeline that contains the done stage, it lands on the least set pipeline
bit above the current stage, within 21 - i shifts. -/
theorem zio_next_stage_go_finds (pipeline : Nat) (hdone : pipeline.testBit 21 = true) :
    ∀ fuel i, i < 21 → 21 - i ≤ fuel →
      ∃ j, i < j ∧ j ≤ 21 ∧ pipeline.testBit j = true ∧
        zio_next_stage_go pipeline (2 ^ i) fuel = some (2 ^ j) ∧
        ∀ k, i < k → k < j → pipeline.testBit k = false := by
  intro fuel
  induction fuel with
  | zero => intro i hi hf; omega
  | succ fuel ih =>
      intro i hi hf
      have hs : 2 ^ i * 2 = 2 ^ (i + 1) := (pow_succ 2 i).symm
      by_cases hb : pipeline.testBit (i + 1) = true
      · refine ⟨i + 1, Nat.lt_succ_self i, by omega, hb, ?_, by omega⟩
        show (if 2 ^ i * 2 &&& pipeline ≠ 0 then some (2 ^ i * 2)
          else zio_next_stage_go pipeline (2 ^ i * 2) fuel) = some (2 ^ (i + 1))
        rw [hs, if_pos ((two_pow_land_ne_zero (i + 1) pipeline).mpr hb)]
      · have hi1 : i + 1 < 21 := by
          rcases Nat.lt_or_ge (i + 1) 21 with h | h
          · exact h
          · have : i + 1 = 21 := by omega
            rw [this] at hb
            exact absurd hdone hb
        obtain ⟨j, hj1, hj2, hj3, hj4, hj5⟩ := ih (i + 1) hi1 (by omega)
        refine ⟨j, by omega, hj2, hj3, ?_, ?_⟩
        · show (if 2 ^ i * 2 &&& pipeline ≠ 0 then some (2 ^ i * 2)
            else zio_next_stage_go pipeline (2 ^ i * 2) fuel) = some (2 ^ j)
          rw [hs, if_neg (by simpa [two_pow_land_ne_zero] using hb)]
          exact hj4
        · intro k hk1 hk2
          rcases Nat.lt_or_ge k (i + 1) with h | h
          · omega
          · rcases Nat.eq_or_lt_of_le h with h | h
            · rw [h] at hb; exact eq_false_of_ne_true hb
            · exact hj5 k h hk2

/-- The while-loop of zio_execute: from any stage of the pipeline it ends,
within 21 - i transitions, at ZIO_STAGE_DONE or at the stage whose handler
returned stop. -/
theorem zio_execute_go_terminates (handler : Nat → Bool) (pipeline : Nat)
    (hdone : pipeline.testBit 21 = true) :
    ∀ fuel i, i ≤ 21 → 22 - i ≤ fuel →
      ∃ fin n, zio_execute_go handler pipeline fuel (2 ^ i) = some (fin, n) ∧
        n ≤ 21 - i ∧ (fin = ZIO_STAGE_DONE ∨ handler fin = false) := by
  intro fuel
  induction fuel with
  | zero => intro i hi hf; omega
  | succ fuel ih =>
      intro i hi hf
      rcases Nat.eq_or_lt_of_le hi with hi21 | hilt
      · refine ⟨2 ^ i, 0, ?_, by omega, Or.inl (by rw [hi21]; rfl)⟩
        have hnot : ¬ 2 ^ i < ZIO_STAGE_DONE := by
          rw [hi21]; exact Nat.lt_irrefl _
        unfold zio_execute_go
        rw [if_neg hnot]
      · have hlt : 2 ^ i < ZIO_STAGE_DONE := by
          have := Nat.pow_lt_pow_right (a := 2) (by omega) hilt
          simpa [ZIO_STAGE_DONE] using this
        obtain ⟨j, hj1, hj2, hj3, hj4, hj5⟩ :=
          zio_next_stage_go_finds pipeline hdone 22 i hilt (by omega)
        have hnext : zio_next_stage pipeline (2 ^ i) = some (2 ^ j) := hj4
        by_cases hh : handler (2 ^ j) = true
        · obtain ⟨fin, n, hex, hn, hfin⟩ := ih j hj2 (by omega)
          refine ⟨fin, n + 1, ?_, by omega, hfin⟩
          unfold zio_execute_go
          rw [if_pos hlt, hnext]
          simp only [hh, if_true, hex]
        · refine ⟨2 ^ j, 1, ?_, by omega, Or.inr (eq_false_of_ne_true hh)⟩
          unfold zio_execute_go
          rw [if_pos hlt, hnext]
          simp only [eq_false_of_ne_true hh, Bool.false_eq_true, if_false]

/-- C9: for a request whose pipeline mask includes the done stage, each
iteration of zio_execute strictly increases the current stage, to the least
set pipeline bit above it; consequently one invocation of zio_execute makes
at most as many transitions as there are pipeline stages (22) and always
ends, either at ZIO_STAGE_DONE or at a stage whose handler returned stop. -/
theorem c9_zio_execute_terminates (handler : Nat → Bool) (pipeline : Nat) (i : Nat)
    (hdone : pipeline.testBit 21 = true) (hi : i ≤ 21) :
    (∀ s, i < 21 → zio_next_stage pipeline (2 ^ i) = some s →
        2 ^ i < s ∧ ∃ j, i < j ∧ j ≤ 21 ∧ s = 2 ^ j ∧ pipeline.testBit j = true ∧
          ∀ k, i < k → k < j → pipeline.testBit k = false)
    ∧ ∃ fin n, zio_execute handler pipeline (2 ^ i) = some (fin, n) ∧ n ≤ 22 ∧
        (fin = ZIO_STAGE_DONE ∨ handler fin = false) := by
  constructor
  · intro s hilt hns
    obtain ⟨j, hj1, hj2, hj3, hj4, hj5⟩ :=
      zio_next_stage_go_finds pipeline hdone 22 i hilt (by omega)
    have hs : s = 2 ^ j := Option.some.inj (hns.symm.trans hj4)
    subst hs
    exact ⟨Nat.pow_lt_pow_right (by omega) hj1, j, hj1, hj2, rfl, hj3, hj5⟩
  · obtain ⟨fin, n, hex, hn, hfin⟩ :=
      zio_execute_go_terminates handler pipeline hdone 22 i hi (by omega)
    exact ⟨fin, n, hex, by omega, hfin⟩

/-- Witness for C9: a pipeline holding only the open and done stages, all
handlers continuing, run from the open stage. -/
theorem c9_zio_execute_terminates_witness :
    ∃ fin n, zio_execute (fun _ => true) 2097153 (2 ^ 0) = some (fin, n) ∧ n ≤ 22 ∧
      (fin = ZIO_STAGE_DONE ∨ (fun _ => true) fin = false) :=
  (c9_zio_execute_terminates (fun _ => true) 2097153 0 (by decide) (by decide)).2

/-- The child-size loop of zio_write_gang_block is exact: for a positive
residual that is a multiple of the minimum block size, with at least one and
at most 512 slots left, the carved sizes sum to the residual and each is
between the minimum block size and the residual it was carved from. -/
theorem gang_sizes_go_ok : ∀ slots resid, 512 ∣ resid → 1 ≤ slots → slots ≤ 512 →
    (zio_write_gang_sizes_go slots resid).sum = resid ∧
      gangSizesOk resid (zio_write_gang_sizes_go slots resid) := by
  intro slots
  induction slots with
  | zero => intro resid h1 h2 h3; omega
  | succ n ih =>
      intro resid hdvd h1 h2
      by_cases hz : resid = 0
      · subst hz
        simp [zio_write_gang_sizes_go, gangSizesOk]
      · obtain ⟨k, rfl⟩ := hdvd
        have hk : 1 ≤ k := by
          rcases Nat.eq_zero_or_pos k with h | h
          · subst h; omega
          · exact h
        have hxpos : 1 ≤ 512 * k / (n + 1) := by
          rw [Nat.le_div_iff_mul_le (by omega)]
          have h512k : 512 * 1 ≤ 512 * k := Nat.mul_le_mul_left 512 hk
          omega
        have hxle : 512 * k / (n + 1) ≤ 512 * k := Nat.div_le_self _ _
        set x := 512 * k / (n + 1) with hx
        have hl1 : 512 ≤ P2ROUNDUP x 512 := by unfold P2ROUNDUP; omega
        have hl2 : P2ROUNDUP x 512 ≤ 512 * k := by unfold P2ROUNDUP; omega
        have hl3 : 512 ∣ P2ROUNDUP x 512 := by unfold P2ROUNDUP; omega
        have hstep : zio_write_gang_sizes_go (n + 1) (512 * k) =
            P2ROUNDUP x 512 :: zio_write_gang_sizes_go n (512 * k - P2ROUNDUP x 512) := by
          rw [zio_write_gang_sizes_go, if_neg hz]
          simp [SPA_MINBLOCKSIZE, hx]
        by_cases hn : n = 0
        · subst hn
          have hx1 : x = 512 * k := by rw [hx, Nat.div_one]
          have hround : P2ROUNDUP x 512 = 512 * k := by
            rw [hx1]; unfold P2ROUNDUP; omega
          rw [hstep, hround]
          have : 512 * k - 512 * k = 0 := by omega
          rw [this]
          refine ⟨by simp [zio_write_gang_sizes_go], ?_⟩
          show SPA_MINBLOCKSIZE ≤ 512 * k ∧ 512 * k ≤ 512 * k ∧
            gangSizesOk (512 * k - 512 * k) (zio_write_gang_sizes_go 0 0)
          refine ⟨by simp [SPA_MINBLOCKSIZE]; omega, Nat.le_refl _, ?_⟩
          simp [zio_write_gang_sizes_go, gangSizesOk]
        · obtain ⟨ihsum, ihok⟩ := ih (512 * k - P2ROUNDUP x 512) (by omega)
            (by omega) (by omega)
          rw [hstep]
          refine ⟨?_, ?_⟩
          · rw [List.sum_cons, ihsum]; omega
          · exact ⟨by simp [SPA_MINBLOCKSIZE]; omega, hl2, ihok⟩

/-- Every size carved under gangSizesOk is at least the minimum block
size. -/
theorem gangSizesOk_min : ∀ (l : List Nat) (r : Nat), gangSizesOk r l →
    ∀ x ∈ l, SPA_MINBLOCKSIZE ≤ x := by
  intro l
  induction l with
  | nil => intro r _ x hx; exact absurd hx (List.not_mem_nil x)
  | cons a as ih =>
      intro r hok x hx
      obtain ⟨h1, h2, h3⟩ := hok
      rcases List.mem_cons.mp hx with rfl | hmem
      · exact h1
      · exact ih (r - a) h3 x hmem

/-- C8: when an allocating write gangs, the children carved at one recursion
level each lie between the minimum block size and the remaining residual and
sum exactly to the request's size (each level also creating exactly one gang
header); in the stated scenario -- a 10 MiB write under an allocator that
grants at most 2 MiB contiguously -- the recursion produces 4 headers (one
per gang expansion, the top level making exactly one), at least 5 leaf
children, and the leaf sizes sum exactly to the original 10 MiB. -/
theorem c8_gang_write_split (size : Nat) (hdvd : 512 ∣ size) (_hpos : 0 < size) :
    (zio_write_gang_sizes size).sum = size
    ∧ gangSizesOk size (zio_write_gang_sizes size)
    ∧ (∀ l, l ∈ zio_write_gang_sizes size → SPA_MINBLOCKSIZE ≤ l)
    ∧ gang_headers 2097152 4 [10485760] = 4
    ∧ 5 ≤ (gang_leaves 2097152 4 [10485760]).length
    ∧ (gang_leaves 2097152 4 [10485760]).sum = 10485760 := by
  obtain ⟨hsum, hok⟩ := gang_sizes_go_ok SPA_GBH_NBLKPTRS size hdvd
    (by simp [SPA_GBH_NBLKPTRS]) (by simp [SPA_GBH_NBLKPTRS])
  exact ⟨hsum, hok, gangSizesOk_min _ _ hok, by decide, by decide, by decide⟩

/-- Witness for C8 at one minimum-size-aligned request: 1 MiB splits into
children summing to 1 MiB. -/
theorem c8_gang_write_split_witness :
    (zio_write_gang_sizes 1048576).sum = 1048576 :=
  (c8_gang_write_split 1048576 (by decide) (by decide)).1

/-- The root block pointer is freed by zio_dva_unallocate whenever it is not
a hole. -/
theorem mem_unallocate_root (gn : ZioGangNode) (bp : Blkptr)
    (hh : bp.is_hole = false) : bp ∈ zio_dva_unallocate gn bp := by
  cases gn with
  | nullp =>
      simp only [zio_dva_unallocate, hh, Bool.false_eq_true, if_false]
      exact List.mem_singleton.mpr rfl
  | node entries =>
      simp only [zio_dva_unallocate, hh, Bool.false_eq_true, if_false]
      exact List.mem_append.mpr (Or.inl (List.mem_singleton.mpr rfl))

mutual
/-- Every non-hole block pointer recorded in a gang tree is freed by
zio_dva_unallocate on that tree. -/
theorem mem_unallocate_tree (gn : ZioGangNode) (bp b : Blkptr)
    (hmem : b ∈ gangTreeBlkptrs gn) (hh : b.is_hole = false) :
    b ∈ zio_dva_unallocate gn bp := by
  cases gn with
  | nullp => exact absurd hmem (by simp [gangTreeBlkptrs])
  | node entries =>
      have hrec := mem_unallocate_entries entries b
        (by simpa [gangTreeBlkptrs] using hmem) hh
      simp only [zio_dva_unallocate]
      exact List.mem_append.mpr (Or.inr hrec)

/-- Every non-hole block pointer recorded under the slots of one gang header
is freed by the slot loop of zio_dva_unallocate. -/
theorem mem_unallocate_entries (entries : List (Blkptr × ZioGangNode)) (b : Blkptr)
    (hmem : b ∈ gangEntryBlkptrs entries) (hh : b.is_hole = false) :
    b ∈ zio_dva_unallocate_entries entries := by
  cases entries with
  | nil => exact absurd hmem (by simp [gangEntryBlkptrs])
  | cons e rest =>
      obtain ⟨bp, g⟩ := e
      simp only [gangEntryBlkptrs, List.mem_cons, List.mem_append] at hmem
      simp only [zio_dva_unallocate_entries]
      rcases hmem with rfl | hmem | hmem
      · exact List.mem_append.mpr (Or.inl (mem_unallocate_root g _ hh))
      · exact List.mem_append.mpr (Or.inl (mem_unallocate_tree g bp b hmem hh))
      · exact List.mem_append.mpr (Or.inr (mem_unallocate_entries rest b hmem hh))
end

/-- C4: for a top-level allocating write that failed or was marked for
reexecution and is neither a rewrite nor a nop-write, the tail of zio_done
is exactly the unallocation frees followed by the branch that reaches the
caller, and that unallocation prefix frees every non-hole block allocated
on the request's behalf: its block pointer and every block recorded in its
gang tree. -/
theorem c4_failed_write_unwinds (z : ZioDoneView)
    (hfail : z.io_error ≠ 0 ∨ z.io_reexecute ≠ 0)
    (halloc : z.is_allocating = true) (hgl : z.gang_leader_self = true)
    (hrw : z.flag_io_rewrite = false) (hnw : z.flag_nopwrite = false) :
    zio_done_tail z =
      (zio_dva_unallocate z.io_gang_tree z.io_bp).map DoneAction.free ++
        (if z.io_reexecute ≠ 0 then [DoneAction.reexecute_or_suspend]
          else [DoneAction.notify_caller])
    ∧ ∀ b, (b = z.io_bp ∨ b ∈ gangTreeBlkptrs z.io_gang_tree) → b.is_hole = false →
        DoneAction.free b ∈
          (zio_dva_unallocate z.io_gang_tree z.io_bp).map DoneAction.free := by
  constructor
  · unfold zio_done_tail
    rw [if_pos ⟨hfail, halloc, hgl, hrw, hnw⟩]
  · intro b hb hh
    refine List.mem_map.mpr ⟨b, ?_, rfl⟩
    rcases hb with rfl | hb
    · exact mem_unallocate_root z.io_gang_tree _ hh
    · exact mem_unallocate_tree z.io_gang_tree z.io_bp b hb hh

/-- Witness for C4: a failed gang write over a one-header tree with two
allocated children and one hole frees its own block pointer. -/
theorem c4_failed_write_unwinds_witness :
    DoneAction.free ⟨false, 0⟩ ∈
      (zio_dva_unallocate
        (ZioGangNode.node [(⟨false, 1⟩, .nullp), (⟨false, 2⟩, .nullp),
          (⟨true, 3⟩, .nullp)]) ⟨false, 0⟩).map DoneAction.free :=
  (c4_failed_write_unwinds
    { io_error := eio, io_reexecute := 0, is_allocating := true,
      gang_leader_self := true, flag_io_rewrite := false, flag_nopwrite := false,
      io_gang_tree := ZioGangNode.node [(⟨false, 1⟩, .nullp), (⟨false, 2⟩, .nullp),
        (⟨true, 3⟩, .nullp)],
      io_bp := ⟨false, 0⟩ }
    (Or.inl (by decide)) rfl rfl rfl rfl).2 ⟨false, 0⟩ (Or.inl rfl) rfl

/-- Every protocol event preserves the completion-protocol invariant. -/
theorem zioLifeStep_preserves (s t : ZioLifeState) (hst : ZioLifeStep s t)
    (hinv : zioLifeInv s) : zioLifeInv t := by
  obtain ⟨h1, h2, h3, h4, h5, h6⟩ := hinv
  cases hst with
  | add_child h =>
      unfold zioLifeInv
      dsimp only
      refine ⟨by omega, by omega, h3, ?_, ?_, h6⟩
      · intro hp
        exact absurd (h4 hp).1 (by simp [h])
      · intro hf
        exact absurd (h5 hf).1 (by simp [h])
  | child_done h =>
      unfold zioLifeInv
      dsimp only
      refine ⟨by omega, by omega, h3, ?_, ?_, h6⟩
      · intro hp
        exact absurd (h4 hp).2.2 (by omega)
      · intro hf
        exact absurd (h5 hf).2.1 (by omega)
  | child_reexec h =>
      unfold zioLifeInv
      dsimp only
      refine ⟨by omega, by omega, fun _ => rfl, ?_, ?_, h6⟩
      · intro hp
        exact absurd (h4 hp).2.2 (by omega)
      · intro hf
        exact absurd (h5 hf).2.1 (by omega)
  | done_reexec hw hr hf hp =>
      unfold zioLifeInv
      dsimp only
      refine ⟨h1, h2, h3, fun _ => ⟨rfl, hf, by omega⟩, ?_, ?_⟩
      · intro hfin
        rw [hf] at hfin
        exact Bool.noConfusion hfin
      · rw [h6, hf]
  | done_final hw hr hf hp =>
      unfold zioLifeInv
      dsimp only
      have hrn : s.reexec_notified = 0 := by
        rcases Nat.eq_zero_or_pos s.reexec_notified with h | h
        · exact h
        · rw [h3 h] at hr
          exact Bool.noConfusion hr
      refine ⟨h1, h2, h3, ?_, ?_, ?_⟩
      · intro hpend
        rw [hp] at hpend
        exact Bool.noConfusion hpend
      · intro _
        exact ⟨rfl, by omega, hrn, hp, by omega⟩
      · rw [h6, hf]
        simp
  | reexec hp =>
      unfold zioLifeInv
      dsimp only
      obtain ⟨hsd, hfin, hrun⟩ := h4 hp
      refine ⟨by omega, by omega, ?_, ?_, ?_, ?_⟩
      · intro h0
        exact absurd h0 (by omega)
      · intro hpend
        exact Bool.noConfusion hpend
      · intro hfin2
        rw [hfin] at hfin2
        exact Bool.noConfusion hfin2
      · rw [h6, hfin]

/-- Every reachable protocol state satisfies the invariant. -/
theorem zioLifeReachable_inv (s : ZioLifeState) (h : ZioLifeReachable s) :
    zioLifeInv s := by
  induction h with
  | refl =>
      refine ⟨rfl, rfl, ?_, ?_, ?_, rfl⟩
      · intro h0; exact absurd h0 (by decide)
      · intro hp; exact Bool.noConfusion hp
      · intro hf; exact Bool.noConfusion hf
  | tail hsteps hstep ih => exact zioLifeStep_preserves _ _ hstep ih

/-- C5 fails as stated: the done stage can be entered with zero outstanding
wait counts while an unremoved child link remains (the child notified from
its reexecute branch), so the add and remove counts differ there; and after
reexecution the done stage is entered a second time. -/
theorem c5_counterexample :
    (¬ ∀ s, ZioLifeReachable s →
        (1 ≤ s.done_entries ∧ s.done_wait = 0) → s.added = s.removed)
    ∧ ¬ ∀ s, ZioLifeReachable s → s.done_entries ≤ 1 := by
  have t01 : ZioLifeStep zioLifeInit
      ⟨1, 0, 1, 0, 1, false, false, false, false, 0, 0⟩ :=
    ZioLifeStep.add_child zioLifeInit rfl
  have t12 : ZioLifeStep ⟨1, 0, 1, 0, 1, false, false, false, false, 0, 0⟩
      ⟨1, 0, 0, 1, 0, true, false, false, false, 0, 0⟩ :=
    ZioLifeStep.child_reexec _ (by decide)
  have t23 : ZioLifeStep ⟨1, 0, 0, 1, 0, true, false, false, false, 0, 0⟩
      ⟨1, 0, 0, 1, 0, true, true, true, false, 1, 0⟩ :=
    ZioLifeStep.done_reexec _ rfl rfl rfl rfl
  have t34 : ZioLifeStep ⟨1, 0, 0, 1, 0, true, true, true, false, 1, 0⟩
      ⟨1, 0, 1, 0, 1, false, false, false, false, 1, 0⟩ :=
    ZioLifeStep.reexec _ rfl
  have t45 : ZioLifeStep ⟨1, 0, 1, 0, 1, false, false, false, false, 1, 0⟩
      ⟨1, 1, 0, 0, 0, false, false, false, false, 1, 0⟩ :=
    ZioLifeStep.child_done _ (by decide)
  have t56 : ZioLifeStep ⟨1, 1, 0, 0, 0, false, false, false, false, 1, 0⟩
      ⟨1, 1, 0, 0, 0, false, true, false, true, 2, 1⟩ :=
    ZioLifeStep.done_final _ rfl rfl rfl rfl
  have r3 : ZioLifeReachable ⟨1, 0, 0, 1, 0, true, true, true, false, 1, 0⟩ :=
    Relation.ReflTransGen.head t01 (Relation.ReflTransGen.head t12
      (Relation.ReflTransGen.head t23 Relation.ReflTransGen.refl))
  have r6 : ZioLifeReachable ⟨1, 1, 0, 0, 0, false, true, false, true, 2, 1⟩ :=
    Relation.ReflTransGen.head t01 (Relation.ReflTransGen.head t12
      (Relation.ReflTransGen.head t23 (Relation.ReflTransGen.head t34
        (Relation.ReflTransGen.head t45 (Relation.ReflTransGen.head t56
          Relation.ReflTransGen.refl)))))
  constructor
  · intro hcl
    have := hcl _ r3 ⟨by decide, rfl⟩
    exact absurd this (by decide)
  · intro hcl
    have := hcl _ r6
    exact absurd this (by decide)

/-- C5 amended: the add and remove counts agree by the time the completion
branch of the done stage runs (the request finishes with no child link
left), and that completion branch runs at most once over the request's
whole lifetime, reexecution included; the done handler itself may be
re-entered after reexecution. -/
theorem c5_done_balanced_amended (s : ZioLifeState) (h : ZioLifeReachable s) :
    (s.finished = true → s.added = s.removed) ∧ s.final_entries ≤ 1 := by
  obtain ⟨h1, h2, h3, h4, h5, h6⟩ := zioLifeReachable_inv s h
  refine ⟨fun hf => (h5 hf).2.2.2.2, ?_⟩
  rw [h6]
  cases s.finished <;> simp

/-- Witness for C5 amended: the freshly created request, reached by the
empty trace. -/
theorem c5_done_balanced_amended_witness :
    (zioLifeInit.finished = true → zioLifeInit.added = zioLifeInit.removed) ∧
      zioLifeInit.final_entries ≤ 1 :=
  c5_done_balanced_amended zioLifeInit Relation.ReflTransGen.refl

/-- A passed walk-extension test yields the tested members and their flavor,
span and gap facts. -/
theorem agg_condb_true {t : List AggIo} {flags limit maxgap fi sl sh gl gh : Nat}
    (h : agg_condb t flags limit maxgap fi sl sh gl gh = true) :
    ∃ d a b c e, t[fi]? = some d ∧ t[sl]? = some a ∧ t[sh]? = some b ∧
      t[gl]? = some c ∧ t[gh]? = some e ∧
      d.agg_flags = flags ∧ uleq (IO_SPAN a b) limit ∧ uleq (IO_GAP c e) maxgap := by
  unfold agg_condb at h
  cases h1 : t[fi]? with
  | none => simp [h1] at h
  | some d =>
  simp only [List.get?_eq_getElem?, h1] at h
  cases h2 : t[sl]? with
  | none => simp [h2] at h
  | some a =>
  simp only [h2] at h
  cases h3 : t[sh]? with
  | none => simp [h3] at h
  | some b =>
  simp only [h3] at h
  cases h4 : t[gl]? with
  | none => simp [h4] at h
  | some c =>
  simp only [h4] at h
  cases h5 : t[gh]? with
  | none => simp [h5] at h
  | some e =>
  simp only [h5, Bool.and_eq_true, decide_eq_true_eq] at h
  exact ⟨d, a, b, c, e, rfl, rfl, rfl, rfl, rfl, h.1, h.2.1, h.2.2⟩

/-- The backward walk only goes down, and every step below the start passed
the extension test. -/
theorem agg_walk_back_spec (t : List AggIo) (flags limit maxgap i : Nat) :
    ∀ f, agg_walk_back t flags limit maxgap i f ≤ f ∧
      ∀ k, agg_walk_back t flags limit maxgap i f ≤ k → k < f →
        agg_condb t flags limit maxgap k k i k (k + 1) = true := by
  intro f
  induction f with
  | zero => exact ⟨Nat.le_refl 0, fun k h1 h2 => absurd h2 (Nat.not_lt_zero k)⟩
  | succ f ih =>
      by_cases hc : agg_condb t flags limit maxgap f f i f (f + 1) = true
      · have heq : agg_walk_back t flags limit maxgap i (f + 1) =
            agg_walk_back t flags limit maxgap i f := by
          simp [agg_walk_back, hc]
        rw [heq]
        refine ⟨Nat.le_succ_of_le ih.1, fun k h1 h2 => ?_⟩
        rcases Nat.lt_or_ge k f with h | h
        · exact ih.2 k h1 h
        · have : k = f := by omega
          subst this
          exact hc
      · have heq : agg_walk_back t flags limit maxgap i (f + 1) = f + 1 := by
          simp [agg_walk_back, hc]
        rw [heq]
        exact ⟨Nat.le_refl _, fun k h1 h2 => absurd (Nat.lt_of_le_of_lt h1 h2)
          (Nat.lt_irrefl _)⟩

/-- The forward walk only goes up, and every step up to its result passed
the extension test. -/
theorem agg_walk_forward_spec (t : List AggIo) (flags limit maxgap fi : Nat) :
    ∀ fuel l, l ≤ agg_walk_forward t flags limit maxgap fi fuel l ∧
      ∀ k, l ≤ k → k < agg_walk_forward t flags limit maxgap fi fuel l →
        agg_condb t flags limit maxgap (k + 1) fi (k + 1) k (k + 1) = true := by
  intro fuel
  induction fuel with
  | zero =>
      intro l
      exact ⟨Nat.le_refl l, fun k h1 h2 => absurd (Nat.lt_of_le_of_lt h1 h2)
        (Nat.lt_irrefl _)⟩
  | succ fuel ih =>
      intro l
      by_cases hc : agg_condb t flags limit maxgap (l + 1) fi (l + 1) l (l + 1) = true
      · have heq : agg_walk_forward t flags limit maxgap fi (fuel + 1) l =
            agg_walk_forward t flags limit maxgap fi fuel (l + 1) := by
          simp [agg_walk_forward, hc]
        rw [heq]
        obtain ⟨ih1, ih2⟩ := ih (l + 1)
        refine ⟨Nat.le_trans (Nat.le_succ l) ih1, fun k h1 h2 => ?_⟩
        rcases Nat.lt_or_ge l k with h | h
        · exact ih2 k (by omega) h2
        · have : k = l := by omega
          subst this
          exact hc
      · have heq : agg_walk_forward t flags limit maxgap fi (fuel + 1) l = l := by
          simp [agg_walk_forward, hc]
        rw [heq]
        exact ⟨Nat.le_refl l, fun k h1 h2 => absurd (Nat.lt_of_le_of_lt h1 h2)
          (Nat.lt_irrefl _)⟩

/-- The skip over initial optional i/os only goes up, never past the
starting request, and everything it skipped was optional. -/
theorem agg_skip_optional_spec (t : List AggIo) (lastIdx : Nat) :
    ∀ fuel f, f ≤ agg_skip_optional t lastIdx fuel f ∧
      (f ≤ lastIdx → agg_skip_optional t lastIdx fuel f ≤ lastIdx) ∧
      ∀ k, f ≤ k → k < agg_skip_optional t lastIdx fuel f →
        ∃ a, t[k]? = some a ∧ a.optional = true := by
  intro fuel
  induction fuel with
  | zero =>
      intro f
      exact ⟨Nat.le_refl f, fun h => by simpa [agg_skip_optional] using h,
        fun k h1 h2 => absurd (Nat.lt_of_le_of_lt h1 h2) (Nat.lt_irrefl _)⟩
  | succ fuel ih =>
      intro f
      by_cases hfl : f < lastIdx
      · cases hg : t[f]? with
        | none =>
            have heq : agg_skip_optional t lastIdx (fuel + 1) f = f := by
              simp [agg_skip_optional, hfl, hg]
            rw [heq]
            exact ⟨Nat.le_refl f, fun h => h, fun k h1 h2 =>
              absurd (Nat.lt_of_le_of_lt h1 h2) (Nat.lt_irrefl _)⟩
        | some first =>
            by_cases hopt : first.optional = true
            · have heq : agg_skip_optional t lastIdx (fuel + 1) f =
                  agg_skip_optional t lastIdx fuel (f + 1) := by
                simp [agg_skip_optional, hfl, hg, hopt]
              rw [heq]
              obtain ⟨ih1, ih2, ih3⟩ := ih (f + 1)
              refine ⟨Nat.le_trans (Nat.le_succ f) ih1, fun _ => ih2 (by omega),
                fun k h1 h2 => ?_⟩
              rcases Nat.lt_or_ge f k with h | h
              · exact ih3 k (by omega) h2
              · have : k = f := by omega
                subst this
                exact ⟨first, hg, hopt⟩
            · have heq : agg_skip_optional t lastIdx (fuel + 1) f = f := by
                simp [agg_skip_optional, hfl, hg, hopt]
              rw [heq]
              exact ⟨Nat.le_refl f, fun h => h, fun k h1 h2 =>
                absurd (Nat.lt_of_le_of_lt h1 h2) (Nat.lt_irrefl _)⟩
      · have heq : agg_skip_optional t lastIdx (fuel + 1) f = f := by
          simp [agg_skip_optional, hfl]
        rw [heq]
        exact ⟨Nat.le_refl f, fun h => h, fun k h1 h2 =>
          absurd (Nat.lt_of_le_of_lt h1 h2) (Nat.lt_irrefl _)⟩

/-- The tracked mandatory member is a non-optional member inside the scanned
range. -/
theorem agg_last_mandatory_spec (t : List AggIo) (f : Nat) :
    ∀ l m, agg_last_mandatory t f l = some m →
      f ≤ m ∧ m ≤ l ∧ ∃ a, t[m]? = some a ∧ a.optional = false := by
  intro l
  induction l with
  | zero =>
      intro m hm
      unfold agg_last_mandatory at hm
      by_cases hfl : f = 0
      · rw [if_pos hfl] at hm
        cases hg : t[0]? with
        | none =>
            simp only [List.get?_eq_getElem?, hg] at hm
            exact Option.noConfusion hm
        | some a =>
            simp only [List.get?_eq_getElem?, hg] at hm
            by_cases hopt : a.optional = false
            · rw [if_pos hopt] at hm
              obtain rfl : (0 : Nat) = m := by injection hm
              exact ⟨by omega, Nat.le_refl 0, a, hg, hopt⟩
            · rw [if_neg hopt] at hm
              exact Option.noConfusion hm
      · rw [if_neg hfl] at hm
        exact Option.noConfusion hm
  | succ l ih =>
      intro m hm
      unfold agg_last_mandatory at hm
      by_cases hfl : f ≤ l + 1
      · rw [if_pos hfl] at hm
        cases hg : t[l + 1]? with
        | none =>
            simp only [List.get?_eq_getElem?, hg] at hm
            obtain ⟨ha, hb, hw⟩ := ih m hm
            exact ⟨ha, by omega, hw⟩
        | some a =>
            simp only [List.get?_eq_getElem?, hg] at hm
            by_cases hopt : a.optional = false
            · rw [if_pos hopt] at hm
              obtain rfl : l + 1 = m := by injection hm
              exact ⟨hfl, Nat.le_refl _, a, hg, hopt⟩
            · rw [if_neg hopt] at hm
              obtain ⟨ha, hb, hw⟩ := ih m hm
              exact ⟨ha, by omega, hw⟩
      · rw [if_neg hfl] at hm
        exact Option.noConfusion hm

/-- A successful stretch scan found a later non-optional member within the
write gap limit of the mandatory member. -/
theorem agg_stretch_spec (t : List AggIo) (mandIdx wgl : Nat) :
    ∀ fuel n, agg_stretch t mandIdx wgl fuel n = true →
      ∃ j d man, n < j ∧ t[j]? = some d ∧ d.optional = false ∧
        t[mandIdx]? = some man ∧ uleq (IO_GAP man d) wgl := by
  intro fuel
  induction fuel with
  | zero => intro n h; exact absurd h (by simp [agg_stretch])
  | succ fuel ih =>
      intro n h
      unfold agg_stretch at h
      cases h1 : t[n + 1]? with
      | none => simp [h1] at h
      | some dio =>
      simp only [List.get?_eq_getElem?, h1] at h
      cases h2 : t[n]? with
      | none => simp [h2] at h
      | some nio =>
      simp only [h2] at h
      cases h3 : t[mandIdx]? with
      | none => simp [h3] at h
      | some man =>
      simp only [h3] at h
      by_cases hcond : IO_GAP nio dio = 0 ∧ uleq (IO_GAP man dio) wgl
      · rw [if_pos hcond] at h
        by_cases hopt : dio.optional = false
        · exact ⟨n + 1, dio, man, Nat.lt_succ_self n, h1, hopt, rfl, hcond.2⟩
        · rw [if_neg hopt] at h
          obtain ⟨j, d, man2, hj1, hj2, hj3, hj4, hj5⟩ := ih (n + 1) h
          obtain rfl : man = man2 := by
            have := h3.symm.trans hj4
            injection this
          exact ⟨j, d, man, by omega, hj2, hj3, rfl, hj5⟩
      · rw [if_neg hcond] at h
        exact Bool.noConfusion h

/-- The trailing trim stays between first and its start and ends at the
mandatory member or at first. -/
theorem agg_trim_spec (f : Nat) (mand : Option Nat) :
    ∀ l, f ≤ l → f ≤ agg_trim f mand l ∧ agg_trim f mand l ≤ l ∧
      (some (agg_trim f mand l) = mand ∨ agg_trim f mand l = f) := by
  intro l
  induction l with
  | zero =>
      intro hfl
      unfold agg_trim
      exact ⟨Nat.le_refl 0 |> fun _ => hfl, Nat.le_refl 0, Or.inr (by omega)⟩
  | succ l ih =>
      intro hfl
      unfold agg_trim
      by_cases hc : some (l + 1) ≠ mand ∧ l + 1 ≠ f ∧ f < l + 1
      · rw [if_pos hc]
        obtain ⟨ha, hb, hd⟩ := ih (by omega)
        exact ⟨ha, by omega, hd⟩
      · rw [if_neg hc]
        push_neg at hc
        refine ⟨hfl, Nat.le_refl _, ?_⟩
        by_cases h1 : some (l + 1) = mand
        · exact Or.inl h1
        · by_cases h2 : l + 1 = f
          · exact Or.inr h2
          · exact absurd (hc h1 h2) (by omega)

/-- In a sorted non-overlapping queue an earlier member ends at or before a
later member starts. -/
theorem aggQueueWF_end_le_start {t : List AggIo} (hwf : AggQueueWF t)
    {i j : Nat} {a b : AggIo} (hij : i < j) (ha : t[i]? = some a)
    (hb : t[j]? = some b) : a.io_offset + a.io_size ≤ b.io_offset := by
  have hia := List.getElem?_eq_some_iff.mp ha
  have hjb := List.getElem?_eq_some_iff.mp hb
  obtain ⟨hi, hga⟩ := hia
  obtain ⟨hj, hgb⟩ := hjb
  have := (List.pairwise_iff_get.mp hwf) ⟨i, hi⟩ ⟨j, hj⟩ hij
  simpa [List.get_eq_getElem, hga, hgb] using this

/-- Spans grow with the right endpoint in a sorted non-overlapping queue. -/
theorem aggQueueWF_span_mono {t : List AggIo} (hwf : AggQueueWF t)
    {l1 l2 : Nat} {a b1 b2 : AggIo} (hl : l1 ≤ l2) (hb1 : t[l1]? = some b1)
    (hb2 : t[l2]? = some b2) : IO_SPAN a b1 ≤ IO_SPAN a b2 := by
  rcases Nat.eq_or_lt_of_le hl with rfl | hlt
  · rw [hb1] at hb2
    obtain rfl : b1 = b2 := by injection hb2
    exact le_refl _
  · have hend := aggQueueWF_end_le_start hwf hlt hb1 hb2
    unfold IO_SPAN
    have : (b1.io_offset : Int) + b1.io_size ≤ (b2.io_offset : Int) + b2.io_size := by
      have hb2size : (b2.io_offset : Int) ≤ (b2.io_offset : Int) + b2.io_size := by
        omega
      calc (b1.io_offset : Int) + b1.io_size ≤ (b2.io_offset : Int) := by
            exact_mod_cast hend
        _ ≤ (b2.io_offset : Int) + b2.io_size := hb2size
    omega

/-- The members of the index range that vdev_queue_aggregate settles on all
carry the starting request's AGG_INHERIT flavor, span at most the
aggregation limit, and leave at most maxgap between consecutive members. -/
theorem agg_members_facts {t : List AggIo} {z : AggIo} {limit maxgap i f1 l1 : Nat}
    (hwf : AggQueueWF t) (hz : t[i]? = some z)
    (hf1 : f1 = agg_skip_optional t i i (agg_walk_back t z.agg_flags limit maxgap i i))
    (hl1a : f1 ≤ l1)
    (hl1b : l1 ≤ agg_walk_forward t z.agg_flags limit maxgap f1 t.length i)
    (hne : f1 ≠ l1) :
    (∀ k a, f1 ≤ k → k ≤ l1 → t[k]? = some a → a.agg_flags = z.agg_flags)
    ∧ (∀ a b, t[f1]? = some a → t[l1]? = some b → IO_SPAN a b ≤ (limit : Int))
    ∧ (∀ k a b, f1 ≤ k → k + 1 ≤ l1 → t[k]? = some a → t[k + 1]? = some b →
        IO_GAP a b ≤ (maxgap : Int)) := by
  obtain ⟨hb_le, hb_cond⟩ := agg_walk_back_spec t z.agg_flags limit maxgap i i
  obtain ⟨hs_le, hs_ub, _⟩ :=
    agg_skip_optional_spec t i i (agg_walk_back t z.agg_flags limit maxgap i i)
  obtain ⟨hf_le, hf_cond⟩ := agg_walk_forward_spec t z.agg_flags limit maxgap f1 t.length i
  have hf0f1 : agg_walk_back t z.agg_flags limit maxgap i i ≤ f1 := hf1 ▸ hs_le
  have hf1i : f1 ≤ i := hf1 ▸ hs_ub hb_le
  have hil0 : i ≤ agg_walk_forward t z.agg_flags limit maxgap f1 t.length i := hf_le
  refine ⟨?_, ?_, ?_⟩
  · intro k a hk1 hk2 hka
    rcases Nat.lt_trichotomy k i with hki | rfl | hki
    · have hcb := hb_cond k (Nat.le_trans hf0f1 hk1) hki
      obtain ⟨d, _, _, _, _, hd, _, _, _, _, hdf, _, _⟩ := agg_condb_true hcb
      obtain rfl : d = a := by
        have := hd.symm.trans hka
        injection this
      exact hdf
    · obtain rfl : z = a := by
        have := hz.symm.trans hka
        injection this
      rfl
    · have hk1' : k - 1 + 1 = k := by omega
      have hcb := hf_cond (k - 1) (by omega) (by omega)
      rw [hk1'] at hcb
      obtain ⟨d, _, _, _, _, hd, _, _, _, _, hdf, _, _⟩ := agg_condb_true hcb
      obtain rfl : d = a := by
        have := hd.symm.trans hka
        injection this
      exact hdf
  · intro a b hfa hlb
    rcases Nat.lt_or_ge i l1 with hil1 | hil1
    · have hk1' : l1 - 1 + 1 = l1 := by omega
      have hcb := hf_cond (l1 - 1) (by omega) (by omega)
      rw [hk1'] at hcb
      obtain ⟨_, a', b', _, _, _, ha', hb', _, _, _, hsp, _⟩ := agg_condb_true hcb
      obtain rfl : a' = a := by
        have := ha'.symm.trans hfa
        injection this
      obtain rfl : b' = b := by
        have := hb'.symm.trans hlb
        injection this
      exact hsp.2
    · have hf1lt : f1 < i := by
        rcases Nat.eq_or_lt_of_le hf1i with h | h
        · exact absurd (by omega : f1 = l1) hne
        · exact h
      have hcb := hb_cond f1 (by omega) hf1lt
      obtain ⟨_, a', b', _, _, _, ha', hb', _, _, _, hsp, _⟩ := agg_condb_true hcb
      have hab : a' = a := by
        have := ha'.symm.trans hfa
        injection this
      have hbz : b' = z := by
        have := hb'.symm.trans hz
        injection this
      rw [hab, hbz] at hsp
      have hmono : IO_SPAN a b ≤ IO_SPAN a z := aggQueueWF_span_mono hwf hil1 hlb hz
      exact le_trans hmono hsp.2
  · intro k a b hk1 hk2 hka hkb
    rcases Nat.lt_or_ge k i with hki | hki
    · have hcb := hb_cond k (Nat.le_trans hf0f1 hk1) hki
      obtain ⟨_, _, _, c', e', _, _, _, hc', he', _, _, hgp⟩ := agg_condb_true hcb
      obtain rfl : c' = a := by
        have := hc'.symm.trans hka
        injection this
      obtain rfl : e' = b := by
        have := he'.symm.trans hkb
        injection this
      exact hgp.2
    · have hcb := hf_cond k hki (by omega)
      obtain ⟨_, _, _, c', e', _, _, _, hc', he', _, _, hgp⟩ := agg_condb_true hcb
      obtain rfl : c' = a := by
        have := hc'.symm.trans hka
        injection this
      obtain rfl : e' = b := by
        have := he'.symm.trans hkb
        injection this
      exact hgp.2

/-- When the trailing trim decided the aggregate's last member, that member
is not optional: the trim stops at the tracked mandatory member (or
collapses the aggregate). -/
theorem agg_trim_result_mandatory {t : List AggIo} {f1 l0 l1 : Nat}
    (hf1l0 : f1 ≤ l0) (hl1 : l1 = agg_trim f1 (agg_last_mandatory t f1 l0) l0)
    (hne : f1 ≠ l1) :
    ∀ b, t[l1]? = some b → b.optional = false := by
  intro b hb
  obtain ⟨ht1, ht2, ht3⟩ := agg_trim_spec f1 (agg_last_mandatory t f1 l0) l0 hf1l0
  rcases ht3 with ht3 | ht3
  · obtain ⟨_, _, a, ha, hopt⟩ := agg_last_mandatory_spec t f1 l0 _ ht3.symm
    rw [← hl1] at ha
    have hab : a = b := by
      have := ha.symm.trans hb
      injection this
    rw [← hab]
    exact hopt
  · rw [← hl1] at ht3
    exact absurd ht3.symm hne

/-- The aggregate decision when no stretch happened: the member range is
first to the trimmed last, every member carries the starting flavor, the
span and the member gaps are bounded, and the last member is not
optional. -/
theorem agg_result_trim_case {t : List AggIo} {z : AggIo}
    {limit maxgap i f1 l0 l1 : Nat}
    (hwf : AggQueueWF t) (hz : t[i]? = some z)
    (hf1 : f1 = agg_skip_optional t i i
      (agg_walk_back t z.agg_flags limit maxgap i i))
    (hl0 : l0 = agg_walk_forward t z.agg_flags limit maxgap f1 t.length i)
    (hl1 : l1 = agg_trim f1 (agg_last_mandatory t f1 l0) l0)
    (hne : f1 ≠ l1) :
    (∀ k a, f1 ≤ k → k ≤ l1 → t[k]? = some a → a.agg_flags = z.agg_flags)
    ∧ (∀ a b, t[f1]? = some a → t[l1]? = some b → IO_SPAN a b ≤ (limit : Int))
    ∧ (∀ k a b, f1 ≤ k → k + 1 ≤ l1 → t[k]? = some a → t[k + 1]? = some b →
        IO_GAP a b ≤ (maxgap : Int))
    ∧ ∀ b, t[l1]? = some b → b.optional = false := by
  have hf1i : f1 ≤ i := by
    rw [hf1]
    exact (agg_skip_optional_spec t i i _).2.1 (agg_walk_back_spec t _ limit maxgap i i).1
  have hil0 : i ≤ l0 := by
    rw [hl0]
    exact (agg_walk_forward_spec t z.agg_flags limit maxgap f1 t.length i).1
  obtain ⟨ht1, ht2, _⟩ :=
    agg_trim_spec f1 (agg_last_mandatory t f1 l0) l0 (Nat.le_trans hf1i hil0)
  have hl1a : f1 ≤ l1 := hl1 ▸ ht1
  have hl1b : l1 ≤ l0 := hl1 ▸ ht2
  obtain ⟨p1, p2, p3⟩ := agg_members_facts hwf hz hf1 hl1a (hl0 ▸ hl1b) hne
  exact ⟨p1, p2, p3, agg_trim_result_mandatory (Nat.le_trans hf1i hil0) hl1 hne⟩

/-- The aggregate decision when the stretch was taken: the member range is
first to the forward-walk last, flavors, span and gaps are bounded, and a
later mandatory member within the write gap limit of the tracked mandatory
member justified keeping the trailing optional members. -/
theorem agg_result_stretch_case {t : List AggIo} {z : AggIo}
    {limit maxgap i f1 l0 m wgl : Nat}
    (hwf : AggQueueWF t) (hz : t[i]? = some z)
    (hf1 : f1 = agg_skip_optional t i i
      (agg_walk_back t z.agg_flags limit maxgap i i))
    (hl0 : l0 = agg_walk_forward t z.agg_flags limit maxgap f1 t.length i)
    (_hmv : agg_last_mandatory t f1 l0 = some m)
    (hst : agg_stretch t m wgl t.length l0 = true)
    (hne : f1 ≠ l0) :
    (∀ k a, f1 ≤ k → k ≤ l0 → t[k]? = some a → a.agg_flags = z.agg_flags)
    ∧ (∀ a b, t[f1]? = some a → t[l0]? = some b → IO_SPAN a b ≤ (limit : Int))
    ∧ (∀ k a b, f1 ≤ k → k + 1 ≤ l0 → t[k]? = some a → t[k + 1]? = some b →
        IO_GAP a b ≤ (maxgap : Int))
    ∧ ∃ man j d, t[m]? = some man ∧ l0 < j ∧ t[j]? = some d ∧
        d.optional = false ∧ uleq (IO_GAP man d) wgl := by
  have hf1i : f1 ≤ i := by
    rw [hf1]
    exact (agg_skip_optional_spec t i i _).2.1 (agg_walk_back_spec t _ limit maxgap i i).1
  have hil0 : i ≤ l0 := by
    rw [hl0]
    exact (agg_walk_forward_spec t z.agg_flags limit maxgap f1 t.length i).1
  obtain ⟨p1, p2, p3⟩ := agg_members_facts hwf hz hf1 (Nat.le_trans hf1i hil0)
    (le_of_eq hl0) hne
  obtain ⟨j, d, man, hj1, hj2, hj3, hj4, hj5⟩ := agg_stretch_spec t m wgl t.length l0 hst
  exact ⟨p1, p2, p3, man, j, d, hj4, hj1, hj2, hj3, hj5⟩

/-- C7: every aggregate the scheduler builds combines only queued requests
of the same class tree and the same AGG_INHERIT flavor as the starting
request, spans at most the configured aggregation limit, tolerates gaps
between members only up to the read gap limit for reads and none for
writes, and keeps a trailing optional member only when the stretch found a
subsequent mandatory request, adjacent within the write gap limit of the
last mandatory member, to join the aggregate. -/
theorem c7_aggregate_limits (P : VdevParams) (t : List AggIo) (typ : ZioType)
    (p : ZioPriority) (i : Nat) (da : Bool) (r : AggResult)
    (hwf : AggQueueWF t)
    (hr : vdev_queue_aggregate P t typ p i da = some r) :
    (∃ z, t[i]? = some z ∧
        ∀ k a, r.first ≤ k → k ≤ r.last → t[k]? = some a →
          a.agg_flags = z.agg_flags)
    ∧ (∀ a b, t[r.first]? = some a → t[r.last]? = some b →
        IO_SPAN a b ≤ (P.zfs_vdev_aggregation_limit : Int))
    ∧ (∀ k a b, r.first ≤ k → k + 1 ≤ r.last → t[k]? = some a →
        t[k + 1]? = some b →
        IO_GAP a b ≤
          ((if typ = ZioType.read then P.zfs_vdev_read_gap_limit else 0 : Nat) : Int))
    ∧ (∀ b, t[r.last]? = some b → b.optional = true →
        r.stretched = true ∧
        ∃ m man j d, agg_last_mandatory t r.first r.last = some m ∧
          t[m]? = some man ∧ r.last < j ∧ t[j]? = some d ∧ d.optional = false ∧
          uleq (IO_GAP man d) P.zfs_vdev_write_gap_limit) := by
  cases da with
  | true => exact absurd hr (by simp [vdev_queue_aggregate])
  | false =>
  by_cases hp : p = ZioPriority.syncRead ∨ p = ZioPriority.syncWrite
  · exact absurd hr (by simp [vdev_queue_aggregate, hp])
  · obtain ⟨z, hz⟩ : ∃ z, t[i]? = some z := by
      cases ho : t[i]? with
      | none => exact absurd hr (by simp [vdev_queue_aggregate, hp, ho])
      | some z => exact ⟨z, rfl⟩
    unfold vdev_queue_aggregate at hr
    rw [if_neg hp] at hr
    simp only [Bool.false_eq_true, if_false, List.get?_eq_getElem?, hz] at hr
    cases typ with
    | read =>
        dsimp only at hr
        simp only [Bool.false_eq_true, if_false] at hr
        rw [Option.ite_none_left_eq_some] at hr
        obtain ⟨hne, hr2⟩ := hr
        have hre := (Option.some.inj hr2).symm
        subst hre
        dsimp only
        obtain ⟨q1, q2, q3, q4⟩ := agg_result_trim_case hwf hz rfl rfl rfl hne
        refine ⟨⟨z, hz, q1⟩, q2, q3, ?_⟩
        intro b hb hopt
        exact absurd (q4 b hb) (by simp [hopt])
    | free =>
        dsimp only at hr
        simp only [Bool.false_eq_true, if_false] at hr
        rw [Option.ite_none_left_eq_some] at hr
        obtain ⟨hne, hr2⟩ := hr
        have hre := (Option.some.inj hr2).symm
        subst hre
        dsimp only
        obtain ⟨q1, q2, q3, q4⟩ := agg_result_trim_case hwf hz rfl rfl rfl hne
        refine ⟨⟨z, hz, q1⟩, q2, q3, ?_⟩
        intro b hb hopt
        exact absurd (q4 b hb) (by simp [hopt])
    | write =>
        cases hmv : agg_last_mandatory t
            (agg_skip_optional t i i (agg_walk_back t z.agg_flags
              P.zfs_vdev_aggregation_limit
              (if ZioType.write = ZioType.read then P.zfs_vdev_read_gap_limit else 0)
              i i))
            (agg_walk_forward t z.agg_flags P.zfs_vdev_aggregation_limit
              (if ZioType.write = ZioType.read then P.zfs_vdev_read_gap_limit else 0)
              (agg_skip_optional t i i (agg_walk_back t z.agg_flags
                P.zfs_vdev_aggregation_limit
                (if ZioType.write = ZioType.read then P.zfs_vdev_read_gap_limit else 0)
                i i))
              t.length i) with
        | none =>
            rw [hmv] at hr
            dsimp only at hr
            simp only [Bool.false_eq_true, if_false] at hr
            rw [Option.ite_none_left_eq_some] at hr
            obtain ⟨hne, hr2⟩ := hr
            have hre := (Option.some.inj hr2).symm
            subst hre
            dsimp only
            obtain ⟨q1, q2, q3, q4⟩ := agg_result_trim_case hwf hz rfl rfl
              (by rw [hmv]) hne
            refine ⟨⟨z, hz, q1⟩, q2, q3, ?_⟩
            intro b hb hopt
            exact absurd (q4 b hb) (by simp [hopt])
        | some m =>
            rw [hmv] at hr
            dsimp only at hr
            by_cases hst : agg_stretch t m P.zfs_vdev_write_gap_limit t.length
                (agg_walk_forward t z.agg_flags P.zfs_vdev_aggregation_limit
                  (if ZioType.write = ZioType.read then P.zfs_vdev_read_gap_limit else 0)
                  (agg_skip_optional t i i (agg_walk_back t z.agg_flags
                    P.zfs_vdev_aggregation_limit
                    (if ZioType.write = ZioType.read then
                      P.zfs_vdev_read_gap_limit else 0)
                    i i))
                  t.length i) = true
            · simp only [hst, if_true] at hr
              rw [Option.ite_none_left_eq_some] at hr
              obtain ⟨hne, hr2⟩ := hr
              have hre := (Option.some.inj hr2).symm
              subst hre
              dsimp only
              obtain ⟨q1, q2, q3, q4⟩ := agg_result_stretch_case hwf hz rfl rfl
                hmv hst hne
              obtain ⟨man, j, d, hq1, hq2, hq3, hq4, hq5⟩ := q4
              refine ⟨⟨z, hz, q1⟩, q2, q3, ?_⟩
              intro b hb hopt
              exact ⟨rfl, m, man, j, d, hmv, hq1, hq2, hq3, hq4, hq5⟩
            · have hst2 := eq_false_of_ne_true hst
              simp only [hst2, Bool.false_eq_true, if_false] at hr
              rw [Option.ite_none_left_eq_some] at hr
              obtain ⟨hne, hr2⟩ := hr
              have hre := (Option.some.inj hr2).symm
              subst hre
              dsimp only
              obtain ⟨q1, q2, q3, q4⟩ := agg_result_trim_case hwf hz rfl rfl
                (by rw [hmv]) hne
              refine ⟨⟨z, hz, q1⟩, q2, q3, ?_⟩
              intro b hb hopt
              exact absurd (q4 b hb) (by simp [hopt])

/-- Witness for C7 on a concrete queue: two adjacent same-flavor writes at
offsets 0 and 512 aggregate into the range 0..1, whose members all carry
flavor 0. -/
theorem c7_aggregate_limits_witness :
    ∃ z, ([⟨0, 512, 0, false⟩, ⟨512, 512, 0, false⟩] : List AggIo)[0]? = some z ∧
      ∀ k a, (0 : Nat) ≤ k → k ≤ 1 →
        ([⟨0, 512, 0, false⟩, ⟨512, 512, 0, false⟩] : List AggIo)[k]? = some a →
        a.agg_flags = z.agg_flags := by
  have h := c7_aggregate_limits vdevParamsDefault
    [⟨0, 512, 0, false⟩, ⟨512, 512, 0, false⟩] ZioType.write ZioPriority.asyncWrite
    0 false ⟨0, 1, false⟩ (by unfold AggQueueWF; decide) (by decide)
  obtain ⟨⟨z, hz, hq⟩, _, _, _⟩ := h
  exact ⟨z, hz, hq⟩
